import Mathlib

/-!
Formal model of the tezra-utils record manager and its helper utilities.

The development shallowly embeds the TypeScript sources:
  - a JS value model (JVal) with the JS notions used by the code
    (typeof, strict equality, own enumerable properties, truthiness);
  - the deep-diff / equality utility (diffObjectsDeep, isEqual);
  - the nested-child setter (setNestedChildOnRecord);
  - the tagged Map/Set JSON replacer and reviver and the induced
    serialize/parse round trip;
  - the record manager itself: the dual stores (raw and with-computed),
    the cache metadata, the subscription (watch) table, and every public
    operation, with reactive watch firings modelled as explicit steps.

Machine integers do not occur in the modelled code paths (numbers are
JS doubles used as integral timestamps and field values; they are
modelled as Int). Stores are association lists keyed by strings, which
keeps the JS distinction between an absent key and a key holding null.
-/

/-- A JavaScript value as used by the record manager: null, undefined,
booleans, (integral) numbers, strings, arrays, plain objects, Map and
Set instances. Objects and arrays are modelled by their own enumerable
properties in insertion order. -/
inductive JVal where
  | null : JVal
  | undef : JVal
  | bool : Bool → JVal
  | num : Int → JVal
  | str : String → JVal
  | arr : List JVal → JVal
  | obj : List (String × JVal) → JVal
  | jmap : List (JVal × JVal) → JVal
  | jset : List JVal → JVal

/-- The JS typeof operator restricted to the modelled values. Note that
typeof null is the string "object", and Map/Set/array instances are all
"object" as well. -/
def jsTypeof : JVal → String
  | .null => "object"
  | .undef => "undefined"
  | .bool _ => "boolean"
  | .num _ => "number"
  | .str _ => "string"
  | .arr _ => "object"
  | .obj _ => "object"
  | .jmap _ => "object"
  | .jset _ => "object"

/-- Source ext/index.ts isNullish: value === null || value === undefined. -/
def isNullish : JVal → Bool
  | .null => true
  | .undef => true
  | _ => false

/-- JS truthiness: false, 0, the empty string, null and undefined are
falsy; every object (including empty ones) is truthy. -/
def jsTruthy : JVal → Bool
  | .null => false
  | .undef => false
  | .bool b => b
  | .num n => !(n == 0)
  | .str s => !(s == "")
  | .arr _ => true
  | .obj _ => true
  | .jmap _ => true
  | .jset _ => true

/-- JS strict equality (===) at the call sites of the diff utility.
Primitives compare by value. Two object references are never compared
at those call sites (the both-objects case recurses first), so the
object row returns false, matching the fact that distinct references
are unequal. NaN does not arise because numbers are modelled as Int. -/
def jsStrictEq : JVal → JVal → Bool
  | .null, .null => true
  | .undef, .undef => true
  | .bool a, .bool b => a == b
  | .num a, .num b => a == b
  | .str a, .str b => a == b
  | _, _ => false

/-- The decimal digit characters used by array index keys. -/
def digitChar : Nat → Char
  | 0 => '0'
  | 1 => '1'
  | 2 => '2'
  | 3 => '3'
  | 4 => '4'
  | 5 => '5'
  | 6 => '6'
  | 7 => '7'
  | 8 => '8'
  | 9 => '9'
  | _ => '*'

/-- Most-significant-first decimal digit characters of n, with enough
fuel to consume every digit. -/
def decimalKeyGo : Nat → Nat → List Char
  | 0, _ => []
  | _ + 1, 0 => []
  | fuel + 1, n + 1 => decimalKeyGo fuel ((n + 1) / 10) ++ [digitChar ((n + 1) % 10)]

/-- The JS property key of array index i: its decimal representation
(the same string toString produces, in a form the kernel can both
evaluate and reason about). -/
def decimalKey (n : Nat) : String :=
  if n == 0 then "0" else String.mk (decimalKeyGo (n + 1) n)

example : decimalKey 0 = "0" := rfl
example : decimalKey 12 = "12" := rfl

/-- Own enumerable properties in insertion order, as Object.entries
sees them: objects expose their fields, arrays expose index keys,
strings expose character index keys, Map and Set instances expose no
enumerable own properties. -/
def jsOwnProps : JVal → List (String × JVal)
  | .obj l => l
  | .arr xs => xs.enum.map (fun p => (decimalKey p.1, p.2))
  | .str s => s.toList.enum.map (fun p => (decimalKey p.1, JVal.str (String.mk [p.2])))
  | _ => []

/-- Property read v[k]: the first matching own property, undefined when
absent. -/
def jsGet (v : JVal) (k : String) : JVal :=
  match (jsOwnProps v).find? (fun p => p.1 == k) with
  | some p => p.2
  | none => JVal.undef

/-- typeof v === "object" && v !== null: the guard for the recursive
branch of the deep diff. -/
def jsIsObjectNonNull (v : JVal) : Bool :=
  match v with
  | .null => false
  | .undef => false
  | .bool _ => false
  | .num _ => false
  | .str _ => false
  | .arr _ => true
  | .obj _ => true
  | .jmap _ => true
  | .jset _ => true

/-- JS object property assignment o[k] = v on the association-list
model: an existing key is updated in place (insertion order kept), a
new key is appended. -/
def assocSet {α : Type} : List (String × α) → String → α → List (String × α)
  | [], k, v => [(k, v)]
  | p :: ps, k, v => if p.1 == k then (k, v) :: ps else p :: assocSet ps k v

/-- Key deletion (the JS delete operator) on the association-list
model. -/
def assocDel {α : Type} (l : List (String × α)) (k : String) : List (String × α) :=
  l.filter (fun p => !(p.1 == k))

/-- Key lookup distinguishing an absent key (none) from a present
binding. -/
def assocGet {α : Type} (l : List (String × α)) (k : String) : Option α :=
  (l.find? (fun p => p.1 == k)).map Prod.snd

/-- Number of bindings held for a key, used to state that a store keeps
exactly one row per id. -/
def assocCount {α : Type} (l : List (String × α)) (k : String) : Nat :=
  (l.filter (fun p => p.1 == k)).length

/-- Insertion-ordered union with duplicates removed, keeping the first
occurrence: the behaviour of new Set([...keysPrev, ...keysNext]). -/
def dedupFirst (l : List String) : List String :=
  l.foldl (fun acc k => if acc.contains k then acc else acc ++ [k]) []

/-- path.join with the / separator. -/
def pathJoin (path : List String) : String :=
  String.intercalate "/" path

/- Size measure on JVal, used to pick a sufficient fuel for the deep
diff (whose JS original recurses on object children of both inputs). -/
mutual
def sizeJ : JVal → Nat
  | .null => 1
  | .undef => 1
  | .bool _ => 1
  | .num _ => 1
  | .str _ => 1
  | .arr xs => 1 + sizeJL xs
  | .obj l => 1 + sizeJP l
  | .jmap es => 1 + sizeJE es
  | .jset xs => 1 + sizeJL xs
def sizeJL : List JVal → Nat
  | [] => 0
  | x :: xs => 1 + sizeJ x + sizeJL xs
def sizeJP : List (String × JVal) → Nat
  | [] => 0
  | (_, v) :: ps => 1 + sizeJ v + sizeJP ps
def sizeJE : List (JVal × JVal) → Nat
  | [] => 0
  | (k, v) :: es => 1 + sizeJ k + sizeJ v + sizeJE es
end

/-- The validate helper inside diffObjectsDeep: when allowNullish is
set, nullish values are replaced by null before comparison. -/
def jsValidate (allowNullish : Bool) (v : JVal) : JVal :=
  if allowNullish && isNullish v then JVal.null else v

/-- Source ext/diff.ts diffObjectsDeep, fuelled form. The pair carries
the local result object and the shared leaf accumulator acc; the JS
function returns acc at the top level (empty path) and result on nested
calls. Both inputs are replaced by an empty object when nullish. The
fuel only bounds the recursion depth; every call made through
diffObjectsDeep has enough fuel because each recursive step descends to
own-property children of both arguments. -/
def diffObjectsDeepGo : Nat → JVal → JVal → List String → Bool →
    List (String × JVal) → (List (String × JVal)) × (List (String × JVal))
  | 0, _, _, _, _, acc => ([], acc)
  | Nat.succ fuel, pv, nv, path, allowNullish, acc0 =>
    let prev := if isNullish pv then JVal.obj [] else pv
    let next := if isNullish nv then JVal.obj [] else nv
    let keys := dedupFirst ((jsOwnProps prev).map Prod.fst ++ (jsOwnProps next).map Prod.fst)
    keys.foldl (fun st key =>
      let newPath := path ++ [key]
      let value1 := jsValidate allowNullish (jsGet prev key)
      let value2 := jsValidate allowNullish (jsGet next key)
      if jsIsObjectNonNull value1 && jsIsObjectNonNull value2 then
        let nested := diffObjectsDeepGo fuel value1 value2 newPath allowNullish st.2
        if 0 < nested.1.length then
          (assocSet st.1 (pathJoin newPath) (JVal.obj nested.1), nested.2)
        else (st.1, nested.2)
      else if !jsStrictEq value1 value2 then
        let d := JVal.obj [("next", value2), ("prev", value1)]
        (assocSet st.1 (pathJoin newPath) d, assocSet st.2 (pathJoin newPath) d)
      else st)
      ([], acc0)

/-- Source ext/diff.ts diffObjectsDeep at its default arguments (empty
path, allowNullish = false, fresh accumulator): returns the flat
accumulator of differing leaf paths, as the JS function does for an
empty path. -/
def diffObjectsDeep (pv nv : JVal) : List (String × JVal) :=
  (diffObjectsDeepGo (sizeJ pv + sizeJ nv + 1) pv nv [] false []).2

/-- Source ext/diff.ts diffObjectsShallow: the distinct top-level key
of each differing leaf path. -/
def diffObjectsShallow (pv nv : JVal) : List String :=
  dedupFirst ((diffObjectsDeep pv nv).map (fun p => ((p.1.splitOn "/").headD "")))

/-- Source ext/diff.ts isEqual, line by line: the typeof guard comes
first, then the nullish cases, then the object case via the deep diff,
then strict equality on primitives. -/
def isEqual (a b : JVal) : Bool :=
  if !(jsTypeof a == jsTypeof b) then false
  else if isNullish a && isNullish b then true
  else if !isNullish a && isNullish b then false
  else if isNullish a && !isNullish b then false
  else if jsTypeof a == "object" && jsTypeof b == "object" then
    (diffObjectsDeep a b).length == 0
  else if jsTypeof a == jsTypeof b then jsStrictEq a b
  else false

example : isEqual (JVal.num 3) (JVal.num 3) = true := rfl

example : isEqual (JVal.obj [("x", JVal.num 1)]) (JVal.obj [("x", JVal.num 1)]) = true := rfl

example : isEqual (JVal.obj [("x", JVal.num 1)]) (JVal.obj [("x", JVal.num 2)]) = false := rfl

example : isEqual (JVal.obj [("x", JVal.obj [("y", JVal.null)])])
    (JVal.obj [("x", JVal.obj [("y", JVal.null)])]) = true := rfl

/-- C6 counterexample: isEqual observes the typeof guard before the
nullish check, so the mixed nullish pairs compare unequal. -/
theorem isEqual_mixed_nullish_cex :
    isEqual JVal.null JVal.undef = false ∧ isEqual JVal.undef JVal.null = false :=
  ⟨rfl, rfl⟩

/-- C6 (amended): isEqual returns true on nullish pairs of the same JS
type — (null, null) and (undefined, undefined) — but false on the mixed
pairs (null, undefined) and (undefined, null), which the leading typeof
check rejects; and a nullish value compared to any non-nullish value
yields false. -/
theorem isEqual_nullish_rules :
    isEqual JVal.null JVal.null = true ∧
    isEqual JVal.undef JVal.undef = true ∧
    isEqual JVal.null JVal.undef = false ∧
    isEqual JVal.undef JVal.null = false ∧
    (∀ a b : JVal, isNullish a = true → isNullish b = false → isEqual a b = false) := by
  refine ⟨rfl, rfl, rfl, rfl, ?_⟩
  intro a b ha hb
  cases a <;> simp [isNullish] at ha <;>
    cases b <;> simp [isNullish] at hb <;> rfl

/-- C6 witness: the universally quantified clause of
isEqual_nullish_rules applied at a concrete nullish / non-nullish
pair. -/
theorem isEqual_nullish_rules_witness :
    isEqual JVal.null (JVal.num 3) = false :=
  isEqual_nullish_rules.2.2.2.2 JVal.null (JVal.num 3) rfl rfl

/-- JS spread-with-assignment on a record: the own properties of v with
key k bound to value (updated in place when present, appended when
new). -/
def jsSpreadSet (v : JVal) (k : String) (value : JVal) : JVal :=
  JVal.obj (assocSet (jsOwnProps v) k value)

/-- JS array element assignment a[i] = v: an in-range index updates the
slot, a past-the-end index extends the array with holes (undefined). -/
def jsArrSet (xs : List JVal) (i : Nat) (v : JVal) : List JVal :=
  if i < xs.length then xs.set i v
  else xs ++ (List.replicate (i - xs.length) JVal.undef) ++ [v]

/-- Numeric value of a decimal digit character. -/
def digitVal (c : Char) : Nat := c.toNat - 48

/-- parseInt(s, 10) on a path segment: the number formed by the leading
decimal digits of s, none when there are no leading digits (NaN). -/
def parseIndex (s : String) : Option Nat :=
  let digits := s.data.takeWhile (fun c => c.isDigit)
  if digits.isEmpty then none
  else some (digits.foldl (fun acc c => acc * 10 + digitVal c) 0)

/-- String split at the / separator (the only separator the nested
setter uses), on the character list of the string. -/
def splitOnSlashGo : List Char → List Char → List String
  | [], cur => [String.mk cur.reverse]
  | c :: cs, cur =>
    if c == '/' then String.mk cur.reverse :: splitOnSlashGo cs []
    else splitOnSlashGo cs (c :: cur)

/-- path.split at / as a list of segments. -/
def splitOnSlash (s : String) : List String := splitOnSlashGo s.data []

/-- Source ext/nest.ts setNestedChildOnRecord, on the list of path
segments produced by splitting at the separator (the JS code re-joins
and re-splits the tail, which yields exactly the tail of the segment
list). An empty segment list cannot be produced by a split and leaves
the record unchanged. A NaN array index would create a non-index
property on the array object, invisible to the array contents, so the
array is kept as is in that branch. -/
def setNestedChildGo : JVal → List String → JVal → JVal
  | o, [], _ => o
  | o, [key], value => jsSpreadSet o key value
  | o, key :: seg2 :: rest2, value =>
    let currentValue := jsGet o key
    match currentValue with
    | .arr xs =>
      match parseIndex seg2 with
      | none => jsSpreadSet o key (JVal.arr xs)
      | some index =>
        match rest2 with
        | [] => jsSpreadSet o key (JVal.arr (jsArrSet xs index value))
        | _ :: _ =>
          let child := xs.getD index JVal.undef
          let childBase := if jsTruthy child then child else JVal.obj []
          jsSpreadSet o key (JVal.arr (jsArrSet xs index (setNestedChildGo childBase rest2 value)))
    | cv =>
      let childBase := if jsTruthy cv then cv else JVal.obj []
      jsSpreadSet o key (setNestedChildGo childBase (seg2 :: rest2) value)

/-- Source ext/nest.ts setNestedChildOnRecord: split the path at / and
assign along the segments. -/
def setNestedChildOnRecord (o : JVal) (path : String) (value : JVal) : JVal :=
  setNestedChildGo o (splitOnSlash path) value

example :
    setNestedChildOnRecord
      (JVal.obj [("id", JVal.str "a"), ("items", JVal.arr [JVal.obj [("name", JVal.str "y")]])])
      "items/0/name" (JVal.str "x")
    = JVal.obj [("id", JVal.str "a"), ("items", JVal.arr [JVal.obj [("name", JVal.str "x")]])] := rfl

/-- Source ext/index.ts replacer: a Map or Set instance becomes a
tagged plain object holding its entries; every other value passes
through. -/
def replacer : JVal → JVal
  | .jmap es => JVal.obj [("dataType", JVal.str "Map"),
      ("value", JVal.arr (es.map (fun e => JVal.arr [e.1, e.2])))]
  | .jset xs => JVal.obj [("dataType", JVal.str "Set"), ("value", JVal.arr xs)]
  | v => v

/- JSON.stringify with the replacer, as a tree-to-tree transformation
(none models an omitted undefined value). Each case is stringify
applied to the replacer image of the value: primitives serialize to
themselves, object properties whose value serializes to undefined are
dropped, undefined array elements serialize to null, and a Map or Set
first turns into its tagged object, whose dataType string and entries
array are then serialized element by element (jsonSerEntries and the
jset row inline that step). -/
mutual
def jsonSer : JVal → Option JVal
  | .undef => none
  | .null => some .null
  | .bool b => some (.bool b)
  | .num n => some (.num n)
  | .str s => some (.str s)
  | .arr xs => some (.arr (jsonSerList xs))
  | .obj l => some (.obj (jsonSerProps l))
  | .jmap es => some (.obj [("dataType", .str "Map"), ("value", .arr (jsonSerEntries es))])
  | .jset xs => some (.obj [("dataType", .str "Set"), ("value", .arr (jsonSerList xs))])
def jsonSerList : List JVal → List JVal
  | [] => []
  | x :: xs => (jsonSer x).getD .null :: jsonSerList xs
def jsonSerProps : List (String × JVal) → List (String × JVal)
  | [] => []
  | (k, v) :: ps =>
    match jsonSer v with
    | some w => (k, w) :: jsonSerProps ps
    | none => jsonSerProps ps
def jsonSerEntries : List (JVal × JVal) → List JVal
  | [] => []
  | (k, v) :: es => .arr [(jsonSer k).getD .null, (jsonSer v).getD .null] :: jsonSerEntries es
end

/-- new Map(entries): each element of the entries array contributes the
pair of its 0 and 1 properties. A fresh parse never aliases references
and a serialized Map holds no duplicate primitive keys, so the
constructor dedup step is invisible. A non-array argument (impossible
on well-formed tagged data) gives the empty Map. -/
def newMapOf : JVal → JVal
  | .arr xs => JVal.jmap (xs.map (fun e => (jsGet e "0", jsGet e "1")))
  | _ => JVal.jmap []

/-- new Set(elements), with the same remarks as newMapOf. -/
def newSetOf : JVal → JVal
  | .arr xs => JVal.jset xs
  | _ => JVal.jset []

/-- Source ext/index.ts reviver: a parsed non-null object whose
dataType property is the string Map or Set is rebuilt into the
corresponding container from its value property; everything else
passes through. -/
def reviver (value : JVal) : JVal :=
  if jsIsObjectNonNull value then
    if jsStrictEq (jsGet value "dataType") (JVal.str "Map") then newMapOf (jsGet value "value")
    else if jsStrictEq (jsGet value "dataType") (JVal.str "Set") then newSetOf (jsGet value "value")
    else value
  else value

/- JSON.parse with the reviver on a parsed tree: children are revived
first, then the reviver is applied to the node itself, the root last,
exactly as the parse walk does. -/
mutual
def jsonRev : JVal → JVal
  | .arr xs => reviver (.arr (jsonRevList xs))
  | .obj l => reviver (.obj (jsonRevProps l))
  | v => reviver v
def jsonRevList : List JVal → List JVal
  | [] => []
  | x :: xs => jsonRev x :: jsonRevList xs
def jsonRevProps : List (String × JVal) → List (String × JVal)
  | [] => []
  | (k, v) :: ps => (k, jsonRev v) :: jsonRevProps ps
end

/-- The persisted-form round trip of ext/index.ts: serialize with the
tagged replacer, parse back with the reviver. -/
def jsonRoundTrip (v : JVal) : Option JVal :=
  (jsonSer v).map jsonRev

/- A value is serializable when it is JSON-representable under the
tagged scheme: it contains no undefined, and no plain object carries
the reserved tag shape (a dataType property equal to the string Map or
Set), which the reviver would otherwise rebuild into a container. -/
mutual
def serializable : JVal → Bool
  | .null => true
  | .undef => false
  | .bool _ => true
  | .num _ => true
  | .str _ => true
  | .arr xs => serializableList xs
  | .obj l =>
    !(jsStrictEq (jsGet (JVal.obj l) "dataType") (JVal.str "Map")) &&
    !(jsStrictEq (jsGet (JVal.obj l) "dataType") (JVal.str "Set")) &&
    serializableProps l
  | .jmap es => serializableEntries es
  | .jset xs => serializableList xs
def serializableList : List JVal → Bool
  | [] => true
  | x :: xs => serializable x && serializableList xs
def serializableProps : List (String × JVal) → Bool
  | [] => true
  | (_, v) :: ps => serializable v && serializableProps ps
def serializableEntries : List (JVal × JVal) → Bool
  | [] => true
  | (k, v) :: es => serializable k && serializable v && serializableEntries es
end

example : jsonRoundTrip (JVal.obj [("m", JVal.jmap [(JVal.str "k", JVal.num 1)])])
    = some (JVal.obj [("m", JVal.jmap [(JVal.str "k", JVal.num 1)])]) := rfl

/-- C9 counterexample: a JSON-representable value that contains a Set
and also a plain object already shaped like the reserved tag does not
round-trip — the reviver rebuilds the tagged plain object into a Set,
so the parsed value differs from the original. -/
theorem jsonRoundTrip_tag_collision_cex :
    jsonRoundTrip
      (JVal.obj [("a", JVal.obj [("dataType", JVal.str "Set"), ("value", JVal.arr [])]),
                 ("b", JVal.jset [JVal.num 1])])
    = some (JVal.obj [("a", JVal.jset []), ("b", JVal.jset [JVal.num 1])]) ∧
    (JVal.obj [("a", JVal.jset []), ("b", JVal.jset [JVal.num 1])]) ≠
      (JVal.obj [("a", JVal.obj [("dataType", JVal.str "Set"), ("value", JVal.arr [])]),
                 ("b", JVal.jset [JVal.num 1])]) := by
  refine ⟨rfl, ?_⟩
  simp

/-- Digit characters produced for indices below ten are digit
characters. -/
theorem digitChar_isDigit (d : Nat) (hd : d < 10) : (digitChar d).isDigit = true := by
  interval_cases d <;> rfl

/-- Every character of a decimal index key body is a digit. -/
theorem decimalKeyGo_digits :
    ∀ (fuel n : Nat) (c : Char), c ∈ decimalKeyGo fuel n → c.isDigit = true := by
  intro fuel
  induction fuel with
  | zero => intro n c hc; simp [decimalKeyGo] at hc
  | succ fuel ih =>
    intro n c hc
    match n with
    | 0 => simp [decimalKeyGo] at hc
    | Nat.succ m =>
      simp only [decimalKeyGo, List.mem_append, List.mem_singleton] at hc
      rcases hc with hc | hc
      · exact ih _ _ hc
      · subst hc
        exact digitChar_isDigit _ (Nat.mod_lt _ (by omega))

/-- An array index key is never the reserved string dataType. -/
theorem decimalKey_ne_dataType (n : Nat) : decimalKey n ≠ "dataType" := by
  unfold decimalKey
  by_cases h0 : (n == 0) = true
  · simp [h0]
  · simp only [h0, Bool.false_eq_true, if_false]
    intro hEq
    have hdata : decimalKeyGo (n + 1) n = "dataType".data := congrArg String.data hEq
    have hmem : ('d' : Char) ∈ decimalKeyGo (n + 1) n := by
      rw [hdata]; decide
    have := decimalKeyGo_digits (n + 1) n 'd' hmem
    simp at this

/-- An array has no dataType own property. -/
theorem jsGet_arr_dataType (xs : List JVal) : jsGet (JVal.arr xs) "dataType" = JVal.undef := by
  unfold jsGet jsOwnProps
  rw [List.find?_eq_none.mpr]
  intro p hp
  simp only [List.mem_map] at hp
  obtain ⟨q, _, rfl⟩ := hp
  simp only [beq_iff_eq]
  exact decimalKey_ne_dataType q.1

/-- The reviver leaves arrays untouched: an array has no dataType
property to match the tag check. -/
theorem reviver_arr (xs : List JVal) : reviver (JVal.arr xs) = JVal.arr xs := by
  unfold reviver
  rw [jsGet_arr_dataType]
  rfl

/-- Pair projection through the array index keys. -/
theorem jsGet_pair_zero (a b : JVal) : jsGet (JVal.arr [a, b]) "0" = a := rfl

/-- Pair projection through the array index keys. -/
theorem jsGet_pair_one (a b : JVal) : jsGet (JVal.arr [a, b]) "1" = b := rfl

/-- The reviver leaves strings untouched. -/
theorem reviver_str (s : String) : reviver (JVal.str s) = JVal.str s := rfl

/-- The reviver rebuilds a Map-tagged object from its value property. -/
theorem reviver_tagged_map (b : JVal) :
    reviver (JVal.obj [("dataType", JVal.str "Map"), ("value", b)]) = newMapOf b := rfl

/-- The reviver rebuilds a Set-tagged object from its value property. -/
theorem reviver_tagged_set (b : JVal) :
    reviver (JVal.obj [("dataType", JVal.str "Set"), ("value", b)]) = newSetOf b := rfl

/- Serialization followed by revival is the identity on serializable
values; the list, property and entry versions feed the structural
induction. -/
mutual
def jsonRT_val : ∀ v : JVal, serializable v = true → (jsonSer v).map jsonRev = some v
  | .null, _ => rfl
  | .undef, h => nomatch h
  | .bool _, _ => rfl
  | .num _, _ => rfl
  | .str _, _ => rfl
  | .arr xs, h => by
    have hl := jsonRT_list xs (by simpa [serializable] using h)
    show some (jsonRev (JVal.arr (jsonSerList xs))) = some (JVal.arr xs)
    show some (reviver (JVal.arr (jsonRevList (jsonSerList xs)))) = some (JVal.arr xs)
    rw [hl, reviver_arr]
  | .obj l, h => by
    have hser : serializable (JVal.obj l) = true := h
    rw [serializable] at hser
    obtain ⟨hAB, hp0⟩ := (Bool.and_eq_true ..).mp hser
    obtain ⟨h1, h2⟩ := (Bool.and_eq_true ..).mp hAB
    have hm1 : jsStrictEq (jsGet (JVal.obj l) "dataType") (JVal.str "Map") = false := by
      simpa using h1
    have hm2 : jsStrictEq (jsGet (JVal.obj l) "dataType") (JVal.str "Set") = false := by
      simpa using h2
    have hp := jsonRT_props l hp0
    show some (jsonRev (JVal.obj (jsonSerProps l))) = some (JVal.obj l)
    show some (reviver (JVal.obj (jsonRevProps (jsonSerProps l)))) = some (JVal.obj l)
    rw [hp, reviver]
    simp [jsIsObjectNonNull, hm1, hm2]
  | .jmap es, h => by
    have he := jsonRT_entries es (by simpa [serializable] using h)
    show some (jsonRev (JVal.obj [("dataType", JVal.str "Map"),
      ("value", JVal.arr (jsonSerEntries es))])) = some (JVal.jmap es)
    show some (reviver (JVal.obj [("dataType", jsonRev (JVal.str "Map")),
      ("value", jsonRev (JVal.arr (jsonSerEntries es)))])) = some (JVal.jmap es)
    show some (reviver (JVal.obj [("dataType", reviver (JVal.str "Map")),
      ("value", reviver (JVal.arr (jsonRevList (jsonSerEntries es))))])) = some (JVal.jmap es)
    rw [reviver_str, reviver_arr, he, reviver_tagged_map, newMapOf]
    simp only [List.map_map, Option.some.injEq, JVal.jmap.injEq]
    have hcomp : ((fun e => (jsGet e "0", jsGet e "1")) ∘ fun (e : JVal × JVal) =>
        JVal.arr [e.1, e.2]) = fun e => e := by
      funext e
      show (jsGet (JVal.arr [e.1, e.2]) "0", jsGet (JVal.arr [e.1, e.2]) "1") = e
      rw [jsGet_pair_zero, jsGet_pair_one]
    rw [hcomp]
    simp
  | .jset xs, h => by
    have hl := jsonRT_list xs (by simpa [serializable] using h)
    show some (jsonRev (JVal.obj [("dataType", JVal.str "Set"),
      ("value", JVal.arr (jsonSerList xs))])) = some (JVal.jset xs)
    show some (reviver (JVal.obj [("dataType", reviver (JVal.str "Set")),
      ("value", reviver (JVal.arr (jsonRevList (jsonSerList xs))))])) = some (JVal.jset xs)
    rw [reviver_str, reviver_arr, hl, reviver_tagged_set, newSetOf]
def jsonRT_list : ∀ xs : List JVal, serializableList xs = true →
    jsonRevList (jsonSerList xs) = xs
  | [], _ => rfl
  | x :: xs, h => by
    have hx : serializable x = true := by
      have hh := h; rw [serializableList, Bool.and_eq_true] at hh; exact hh.1
    have hxs : serializableList xs = true := by
      have hh := h; rw [serializableList, Bool.and_eq_true] at hh; exact hh.2
    have hv := jsonRT_val x hx
    cases hs : jsonSer x with
    | none => rw [hs] at hv; simp at hv
    | some w =>
      rw [hs] at hv
      replace hv : jsonRev w = x := by simpa using hv
      show jsonRev ((jsonSer x).getD JVal.null) :: jsonRevList (jsonSerList xs) = x :: xs
      rw [hs, jsonRT_list xs hxs]
      simp [hv]
def jsonRT_props : ∀ ps : List (String × JVal), serializableProps ps = true →
    jsonRevProps (jsonSerProps ps) = ps
  | [], _ => rfl
  | (k, v) :: ps, h => by
    have hx : serializable v = true := by
      have hh := h; rw [serializableProps, Bool.and_eq_true] at hh; exact hh.1
    have hps : serializableProps ps = true := by
      have hh := h; rw [serializableProps, Bool.and_eq_true] at hh; exact hh.2
    have hv := jsonRT_val v hx
    cases hs : jsonSer v with
    | none => rw [hs] at hv; simp at hv
    | some w =>
      rw [hs] at hv
      replace hv : jsonRev w = v := by simpa using hv
      show jsonRevProps (jsonSerProps ((k, v) :: ps)) = (k, v) :: ps
      rw [jsonSerProps, hs]
      show (k, jsonRev w) :: jsonRevProps (jsonSerProps ps) = (k, v) :: ps
      rw [hv, jsonRT_props ps hps]
def jsonRT_entries : ∀ es : List (JVal × JVal), serializableEntries es = true →
    jsonRevList (jsonSerEntries es) = es.map (fun e => JVal.arr [e.1, e.2])
  | [], _ => rfl
  | (k, v) :: es, h => by
    have hser := h
    rw [serializableEntries] at hser
    obtain ⟨hkv, hes⟩ := (Bool.and_eq_true ..).mp hser
    obtain ⟨hk, hv⟩ := (Bool.and_eq_true ..).mp hkv
    have hkv1 := jsonRT_val k hk
    have hvv1 := jsonRT_val v hv
    cases hsk : jsonSer k with
    | none => rw [hsk] at hkv1; simp at hkv1
    | some wk =>
      cases hsv : jsonSer v with
      | none => rw [hsv] at hvv1; simp at hvv1
      | some wv =>
        rw [hsk] at hkv1
        rw [hsv] at hvv1
        replace hkv1 : jsonRev wk = k := by simpa using hkv1
        replace hvv1 : jsonRev wv = v := by simpa using hvv1
        show jsonRev (JVal.arr [(jsonSer k).getD JVal.null, (jsonSer v).getD JVal.null]) ::
          jsonRevList (jsonSerEntries es) = _
        rw [hsk, hsv, jsonRT_entries es hes]
        show reviver (JVal.arr [jsonRev wk, jsonRev wv]) :: _ = _
        rw [hkv1, hvv1, reviver_arr, List.map_cons]
end

/-- C9 (amended): serializing with the tagged replacer and parsing with
the matching reviver round-trips every JSON-representable value —
including Map-like and Set-like containers, which are restored as Map
and Set instances — provided no plain object inside the value already
carries the reserved tag shape (a dataType property equal to the string
Map or Set); such an object is rebuilt into a container by the reviver
and breaks the round trip. -/
theorem jsonRoundTrip_restores_containers (v : JVal) (h : serializable v = true) :
    jsonRoundTrip v = some v :=
  jsonRT_val v h

/-- C9 witness: the round trip at a concrete value holding both a Map
and a Set. -/
theorem jsonRoundTrip_restores_containers_witness :
    jsonRoundTrip (JVal.obj [("m", JVal.jmap [(JVal.str "k", JVal.num 1)]),
        ("s", JVal.jset [JVal.num 2])])
    = some (JVal.obj [("m", JVal.jmap [(JVal.str "k", JVal.num 1)]),
        ("s", JVal.jset [JVal.num 2])]) :=
  jsonRoundTrip_restores_containers _ rfl

/-- A derivation (computed getter), as declared in the registry: a
function of the raw-record lookup returning a function of the target
(a record or its id) and any extra arguments. -/
def DerivFn : Type := (String → Option JVal) → JVal → List JVal → JVal

/-- The state owned by one manager instance: the raw store, the
with-computed store, the cache metadata, the subscription (watch) table
holding one token per established (id, field) watch, the next fresh
token, and a ghost counter of derivation invocations used to observe
memoization. -/
structure MState where
  raw : List (String × Option JVal)
  withComp : List (String × Option JVal)
  cacheMeta : List (String × Option Int)
  watches : List (String × List (String × Nat))
  nextTok : Nat
  derivCalls : Nat

/-- The construction-time configuration of a manager: the declared
computed getters, the persistence switch, the current time (Date.now is
constant over one modelled run) and the configured ttl. -/
structure MCfg where
  gs : List (String × DerivFn)
  persist : Bool
  now : Int
  ttl : Option Int

/-- Default time to live: one week in milliseconds. -/
def DEFAULT_TTL : Int := 1000 * 60 * 60 * 24 * 7

/-- meta.ttl with the JS or-default (a missing or zero ttl falls back
to the default, 0 being falsy). -/
def ttlOr : Option Int → Int
  | some t => if t == 0 then DEFAULT_TTL else t
  | none => DEFAULT_TTL

/-- recordRawGetter: recordRaw[id] ?? null, i.e. the stored record or
null (none) when the key is absent or holds null. -/
def rawGetterOf (s : MState) : String → Option JVal := fun id =>
  match assocGet s.raw id with
  | some (some v) => some v
  | _ => none

/-- A JS read of a store entry with the two nullish states collapsed:
some v for a stored record, none when the key is absent or holds
null. -/
def entryVal (store : List (String × Option JVal)) (id : String) : Option JVal :=
  match assocGet store id with
  | some (some v) => some v
  | _ => none

/-- The watch token registered for the pair (id, k), if any. -/
def watchOf (s : MState) (id k : String) : Option Nat :=
  match assocGet s.watches id with
  | some fields => assocGet fields k
  | none => none

/-- The optional-chain read recordWithComputeds[id]?.computed?.[k]. -/
def computedFieldOf (s : MState) (id k : String) : JVal :=
  match entryVal s.withComp id with
  | none => JVal.undef
  | some v =>
    let c := jsGet v "computed"
    if isNullish c then JVal.undef else jsGet c k

/-- The optional-chain read recordWithComputeds[id]?.computed. -/
def computedMapOf (s : MState) (id : String) : JVal :=
  match entryVal s.withComp id with
  | none => JVal.undef
  | some v => jsGet v "computed"

/-- Source helpers.ts isItemWithComputed: the computed property is
non-nullish and the key is present. -/
def isItemWithComputed (i : Option JVal) : Bool :=
  match i with
  | none => false
  | some v => !isNullish (jsGet v "computed") && (jsOwnProps v).any (fun p => p.1 == "computed")

/-- Source helpers.ts itemWithComputedToRaw: nullish input gives null;
otherwise a copy of the item without its computed key, or null when no
other field remains. -/
def itemWithComputedToRaw (item : Option JVal) : Option JVal :=
  match item with
  | none => none
  | some v =>
    let l := assocDel (jsOwnProps v) "computed"
    if l.length == 0 then none else some (JVal.obj l)

/-- The ghost derivation-invocation counter, bumped at every
application of a derivation function. -/
def bumpCalls (s : MState) : MState := { s with derivCalls := s.derivCalls + 1 }

/-- The copy-on-write merge performed by the watch callback:
the old entry spread with computed replaced by the old computed map
spread with field k set to newVal. -/
def mergeComputed (e : Option JVal) (k : String) (newVal : JVal) : JVal :=
  let oldC := match e with | some v => jsGet v "computed" | none => JVal.undef
  let newC := JVal.obj (assocSet (jsOwnProps oldC) k newVal)
  JVal.obj (assocSet (match e with | some v => jsOwnProps v | none => []) "computed" newC)

/-- The watch callback installed by watchGetter: evaluate the watched
derivation over the current raw lookup, compare (isEqual) with the
cached computed field, and on a change write the merged record back.
Returns the value assigned to the ref, none when the write was
skipped. -/
def watchCallback (id k : String) (fn : DerivFn) (s : MState) : Option JVal × MState :=
  let newVal := fn (rawGetterOf s) (JVal.str id) []
  let s1 := bumpCalls s
  let oldVal := computedFieldOf s1 id k
  if isEqual oldVal newVal then (none, s1)
  else (some newVal,
    { s1 with withComp :=
        assocSet s1.withComp id (some (mergeComputed (entryVal s1.withComp id) k newVal)) })

/-- Source watchGetter: an existing watcher for (id, k) makes the call
a read returning the cached field and changes nothing; otherwise the
watch is created (firing once immediately through watchCallback) and
registered in the table under a fresh token. The returned value is the
content of the local ref. -/
def watchGetter (id k : String) (fn : DerivFn) (s : MState) : JVal × MState :=
  match watchOf s id k with
  | some _ => (computedFieldOf s id k, s)
  | none =>
    let r := watchCallback id k fn s
    let fields := match assocGet r.2.watches id with | some f => f | none => []
    let s2 := { r.2 with
      watches := assocSet r.2.watches id (assocSet fields k r.2.nextTok),
      nextTok := r.2.nextTok + 1 }
    (r.1.getD JVal.null, s2)

/-- Source initComputeds: per declared field in order, a nullish item
gives null; with no watcher yet the field subscribes through
watchGetter and takes the produced value; with a watcher the cached
computed value is reused. (The final direct-derivation fallthrough of
the source is unreachable: the two watcher guards are complementary.) -/
def initComputedsStep (id : String) (item : Option JVal)
    (acc : (List (String × JVal)) × MState) (g : String × DerivFn) :
    (List (String × JVal)) × MState :=
  let r :=
    match item with
    | none => (JVal.null, acc.2)
    | some _ =>
      match watchOf acc.2 id g.1 with
      | none => watchGetter id g.1 g.2 acc.2
      | some _ => (computedFieldOf acc.2 id g.1, acc.2)
  (acc.1 ++ [(g.1, r.1)], r.2)

def initComputeds (cfg : MCfg) (id : String) (item : Option JVal) (s : MState) :
    (List (String × JVal)) × MState :=
  cfg.gs.foldl (initComputedsStep id item) ([], s)

/- Source setRecordItem: a null value clears both store entries;
otherwise an incoming non-nullish computed field is stripped, the raw
store is written first, a degenerate empty residue is treated as null
(raw written, with-computed cleared), and the with-computed entry is
materialized as the raw value joined with the initComputeds map; under
persistence the cache metadata is stamped with now + ttl.
setRecordItemRest is the work done after the strip. -/
def setRecordItemRest (cfg : MCfg) (id : String) (s : MState) : Option JVal → MState
  | none =>
    { s with raw := assocSet s.raw id none,
             withComp := assocSet s.withComp id none }
  | some rawv =>
    let s1 := { s with raw := assocSet s.raw id (some rawv) }
    let r := initComputeds cfg id (some rawv) s1
    let withComputed := JVal.obj (assocSet (jsOwnProps rawv) "computed" (JVal.obj r.1))
    let s2 := { r.2 with withComp := assocSet r.2.withComp id (some withComputed) }
    if cfg.persist then
      { s2 with cacheMeta := assocSet s2.cacheMeta id (some (cfg.now + ttlOr cfg.ttl)) }
    else s2

def setRecordItem (cfg : MCfg) (id : String) (value : Option JVal) (s : MState) : MState :=
  match value with
  | none =>
    { s with withComp := assocSet s.withComp id none, raw := assocSet s.raw id none }
  | some v =>
    setRecordItemRest cfg id s
      (if isItemWithComputed (some v) then itemWithComputedToRaw (some v) else some v)

/-- Source watchComputedGetters: subscribe every declared field of the
record. -/
def watchGetterStep (id : String) (s : MState) (g : String × DerivFn) : MState :=
  (watchGetter id g.1 g.2 s).2

def watchComputedGetters (cfg : MCfg) (id : String) (s : MState) : MState :=
  cfg.gs.foldl (watchGetterStep id) s

/-- Source setAndWatchGetters: without declared getters, with a nullish
item, or with subscriptions already present for the id, delegate
straight to setRecordItem; otherwise derive a fresh computed map,
compare it (isEqual) against the current computed entry, and either set
the plain item or set the computed-joined item and subscribe every
field. -/
def setAndWatchGetters (cfg : MCfg) (id : String) (item : Option JVal) (s : MState) : MState :=
  let isCurrentlyWatching := (assocGet s.watches id).isSome
  if cfg.gs.length == 0 || item.isNone || isCurrentlyWatching then
    setRecordItem cfg id item s
  else
    match item with
    | none => setRecordItem cfg id none s
    | some iv =>
      let r := initComputeds cfg id (some iv) s
      if isEqual (JVal.obj r.1) (computedMapOf r.2 id) then
        setRecordItem cfg id (some iv) r.2
      else
        let s2 := setRecordItem cfg id
          (some (JVal.obj (assocSet (jsOwnProps iv) "computed" (JVal.obj r.1)))) r.2
        watchComputedGetters cfg id s2

/-- Source manager.get: the computed-joined record; a nullish entry is
first replaced by a null tombstone through setRecordItem, and the entry
is then re-read and returned. -/
def mget (cfg : MCfg) (id : String) (s : MState) : Option JVal × MState :=
  let item := entryVal s.withComp id
  if item.isNone then
    let s1 := setRecordItem cfg id none s
    (entryVal s1.withComp id, s1)
  else (item, s)

/-- Source manager.getRaw: the same lazy-tombstone pattern against the
raw store. -/
def mgetRaw (cfg : MCfg) (id : String) (s : MState) : Option JVal × MState :=
  let item := entryVal s.raw id
  if item.isNone then
    let s1 := setRecordItem cfg id none s
    (entryVal s1.raw id, s1)
  else (item, s)

/-- Source manager.getRawClone: structuredClone(recordRaw[id]) ?? null.
A deep value copy is the identity on model values, and the undefined
case collapses to null exactly as entryVal does; the body reads the raw
store and performs no write. -/
def mgetRawClone (s : MState) (id : String) : Option JVal × MState :=
  (entryVal s.raw id, s)

/-- Source manager.set: strip a non-nullish computed field, silently
ignore a nullish item, and delegate to setAndWatchGetters under the
item id. The typed interface guarantees a string id; anything else is
outside the model and left as a no-op. -/
def mset (cfg : MCfg) (itemIn : JVal) (s : MState) : MState :=
  let item := if isItemWithComputed (some itemIn) then itemWithComputedToRaw (some itemIn)
              else some itemIn
  match item with
  | none => s
  | some iv =>
    if isNullish iv then s
    else
      match jsGet iv "id" with
      | .str id => setAndWatchGetters cfg id (some iv) s
      | _ => s

/-- Source manager.setChildOf: a no-op on a falsy entry; otherwise the
stripped record receives either a direct field assignment or a
nested-path assignment, and the result round-trips through set. -/
def msetChildOf (cfg : MCfg) (id key : String) (value : JVal) (s : MState) : MState :=
  let keyIsDirectKey := !(key.data.any (fun c => c == '/'))
  if (entryVal s.withComp id).isNone then s
  else
    let explicit := itemWithComputedToRaw (entryVal s.withComp id)
    let explicit2 :=
      match explicit with
      | some ev =>
        if keyIsDirectKey then some (JVal.obj (assocSet (jsOwnProps ev) key value))
        else some (setNestedChildOnRecord ev key value)
      | none => none
    match explicit2 with
    | some ev => mset cfg ev s
    | none => s

/-- Source manager.unset: assign null to the entry in the raw store,
the with-computed store and the cache metadata, then delete all three
keys. -/
def munset (id : String) (s : MState) : MState :=
  let s1 := { s with withComp := assocSet s.withComp id none,
                     raw := assocSet s.raw id none,
                     cacheMeta := assocSet s.cacheMeta id none }
  { s1 with withComp := assocDel s1.withComp id,
            raw := assocDel s1.raw id,
            cacheMeta := assocDel s1.cacheMeta id }

/-- Source manager.reset: unset every key of a snapshot of the
with-computed store (the persisted-blob removal only touches the
external storage adapter). -/
def mreset (s : MState) : MState :=
  (s.withComp.map Prod.fst).foldl (fun s id => munset id s) s

/-- Source manager.update: set every item of the input collection in
order. -/
def mupdate (cfg : MCfg) (items : List JVal) (s : MState) : MState :=
  items.foldl (fun s it => mset cfg it s) s

/-- Source manager.overwrite: reset, then update. -/
def moverwrite (cfg : MCfg) (items : List JVal) (s : MState) : MState :=
  mupdate cfg items (mreset s)

/-- A later firing of the deep watch registered for (id, k): the
reactive layer re-runs the watched derivation when its tracked inputs
change and invokes the callback watchGetter installed; the local ref of
that call is no longer observed. -/
def fireWatch (id k : String) (fn : DerivFn) (s : MState) : MState :=
  (watchCallback id k fn s).2

/-- The body of the cleanUpCache pass for one snapshot entry: a
non-null entry whose expires lies strictly before the current time is
deleted from the raw store, the with-computed store and the metadata,
and each of the three keys is then re-assigned null. -/
def cleanUpStep (cfg : MCfg) (s : MState) : String × Option Int → MState
  | (_, none) => s
  | (pid, some expires) =>
    if expires < cfg.now then
      let s1 := { s with raw := assocDel s.raw pid,
                         withComp := assocDel s.withComp pid,
                         cacheMeta := assocDel s.cacheMeta pid }
      { s1 with raw := assocSet s1.raw pid none,
                withComp := assocSet s1.withComp pid none,
                cacheMeta := assocSet s1.cacheMeta pid none }
    else s

/-- Source cleanUpCache: one pass of cleanUpStep over a snapshot of the
cache-metadata entries. -/
def cleanUpCache (cfg : MCfg) (s : MState) : MState :=
  s.cacheMeta.foldl (cleanUpStep cfg) s

/-- One entry of the construction-time reconciliation: the persisted
with-computed entry is stripped of its computed field and, when the
residue differs (isEqual) from the current raw entry, written over
it. -/
def reconcileStep (s : MState) (p : String × Option JVal) : MState :=
  let raw := itemWithComputedToRaw p.2
  let existing := match assocGet s.raw p.1 with
    | some (some v) => v
    | some none => JVal.null
    | none => JVal.undef
  if isEqual (match raw with | some v => v | none => JVal.null) existing then s
  else { s with raw := assocSet s.raw p.1 raw }

/-- The construction-time reconciliation over every persisted
with-computed entry. -/
def reconcileRaw (s : MState) : MState :=
  s.withComp.foldl reconcileStep s

/-- Manager construction: the with-computed store and the cache
metadata are seeded from their persisted values when persistence is on
(fresh otherwise), the raw store from meta.initial; persisted computed
entries are then reconciled into the raw store, the expired-entry sweep
runs exactly once, and the initial items are replayed through
setAndWatchGetters. -/
def constructManager (cfg : MCfg) (persistedWithComp : List (String × Option JVal))
    (initialRaw : List (String × Option JVal))
    (persistedMeta : List (String × Option Int)) : MState :=
  let s0 : MState :=
    { raw := initialRaw,
      withComp := if cfg.persist then persistedWithComp else [],
      cacheMeta := if cfg.persist then persistedMeta else [],
      watches := [], nextTok := 0, derivCalls := 0 }
  let s1 := reconcileRaw s0
  let s2 := cleanUpCache cfg s1
  initialRaw.foldl (fun s p => setAndWatchGetters cfg p.1 p.2 s) s2

/-- Source cacheMappedComputedGetters, as the getter exposed for one
declared field (name, fn). A nullish target invokes the derivation
directly on it. Otherwise the id is resolved (the typed interface
guarantees a string id; the JS property-key coercion of anything else
is modelled by the key of undefined), a missing subscription is
established lazily and its ref value refreshes the cached read, and
with zero extra arguments a truthy cached value is returned as is;
in every other case the derivation runs fresh on the resolved id. -/
def cacheMappedComputedGetter (name : String) (fn : DerivFn)
    (maybeID : JVal) (args : List JVal) (s : MState) : JVal × MState :=
  if isNullish maybeID then
    (fn (rawGetterOf s) maybeID args, bumpCalls s)
  else
    let id := match maybeID with
      | .str i => i
      | v => match jsGet v "id" with
        | .str i => i
        | _ => "undefined"
    let watcher := watchOf s id name
    let cached0 := computedFieldOf s id name
    let r :=
      match watcher with
      | none =>
        let w := watchGetter id name fn s
        ((if isNullish w.1 then cached0 else w.1), w.2)
      | some _ => (cached0, s)
    if args.length == 0 && jsTruthy r.1 then (r.1, r.2)
    else (fn (rawGetterOf r.2) (JVal.str id) args, bumpCalls r.2)

/-- The record passed to a public set carries no nullish computed
field (either no computed key at all, or a non-nullish one, which set
strips): the input discipline of the amended C1 claim. -/
def goodItem (v : JVal) : Bool :=
  !((jsOwnProps v).any (fun p => p.1 == "computed")) || !isNullish (jsGet v "computed")

/-- setChildOf does not target the computed field itself. -/
def goodChildKey (key : String) : Bool :=
  !(((splitOnSlash key).headD "") == "computed")

/-- One observable step of a manager: a public mutation (with the
goodItem input discipline), a public read (get and getRaw write lazy
tombstones), or the firing of a registered watch of a declared
derivation field. -/
inductive Step (cfg : MCfg) : MState → MState → Prop where
  | set (s : MState) (item : JVal) (h : goodItem item = true) :
      Step cfg s (mset cfg item s)
  | setChildOf (s : MState) (id key : String) (value : JVal) (h : goodChildKey key = true) :
      Step cfg s (msetChildOf cfg id key value s)
  | update (s : MState) (items : List JVal) (h : ∀ it ∈ items, goodItem it = true) :
      Step cfg s (mupdate cfg items s)
  | overwrite (s : MState) (items : List JVal) (h : ∀ it ∈ items, goodItem it = true) :
      Step cfg s (moverwrite cfg items s)
  | unset (s : MState) (id : String) : Step cfg s (munset id s)
  | reset (s : MState) : Step cfg s (mreset s)
  | get (s : MState) (id : String) : Step cfg s (mget cfg id s).2
  | getRaw (s : MState) (id : String) : Step cfg s (mgetRaw cfg id s).2
  | fire (s : MState) (id k : String) (fn : DerivFn)
      (hw : watchOf s id k ≠ none) (hf : assocGet cfg.gs k = some fn) :
      Step cfg s (fireWatch id k fn s)

/-- The states a freshly constructed manager (no persisted seed, no
initial items) can reach through its public surface and watch
firings. -/
def Reachable (cfg : MCfg) : MState → Prop :=
  Relation.ReflTransGen (Step cfg) (constructManager cfg [] [] [])

/-- The concrete doubling derivation used by witnesses: twice the x
field of the looked-up record. -/
def doubleFn : DerivFn := fun look t _ =>
  match t with
  | .str id =>
    match look id with
    | some r =>
      match jsGet r "x" with
      | .num n => .num (2 * n)
      | _ => .null
    | none => .null
  | _ => .null

/-- A configuration with no declared getters. -/
def cfgPlain : MCfg := { gs := [], persist := false, now := 0, ttl := none }

/-- A configuration declaring the double derivation. -/
def cfgDouble : MCfg := { gs := [("double", doubleFn)], persist := false, now := 0, ttl := none }

example :
    entryVal (mset cfgPlain (JVal.obj [("id", JVal.str "a"), ("x", JVal.num 1)])
      (constructManager cfgPlain [] [] [])).raw "a"
    = some (JVal.obj [("id", JVal.str "a"), ("x", JVal.num 1)]) := rfl

example :
    entryVal (mset cfgPlain (JVal.obj [("id", JVal.str "a"), ("x", JVal.num 1)])
      (constructManager cfgPlain [] [] [])).withComp "a"
    = some (JVal.obj [("id", JVal.str "a"), ("x", JVal.num 1), ("computed", JVal.obj [])]) := rfl

/- Immediately after the set, the immediate watch fire has computed
against the not-yet-written raw store, so the cached value is null; the
deep watch then fires on the raw write and caches the derived value. -/
example :
    computedFieldOf (mset cfgDouble (JVal.obj [("id", JVal.str "a"), ("x", JVal.num 2)])
      (constructManager cfgDouble [] [] [])) "a" "double"
    = JVal.null := rfl

example :
    computedFieldOf (fireWatch "a" "double" doubleFn
      (mset cfgDouble (JVal.obj [("id", JVal.str "a"), ("x", JVal.num 2)])
        (constructManager cfgDouble [] [] []))) "a" "double"
    = JVal.num 4 := rfl

example :
    watchOf (mset cfgDouble (JVal.obj [("id", JVal.str "a"), ("x", JVal.num 2)])
      (constructManager cfgDouble [] [] [])) "a" "double"
    = some 0 := rfl

theorem assocGet_assocSet_self {α : Type} (l : List (String × α)) (k : String) (v : α) :
    assocGet (assocSet l k v) k = some v := by
  induction l with
  | nil => simp [assocSet, assocGet]
  | cons p ps ih =>
    by_cases h : (p.1 == k) = true
    · simp [assocSet, h, assocGet]
    · simp only [assocSet, h, Bool.false_eq_true, if_false]
      simpa [assocGet, List.find?, h] using ih

theorem assocGet_assocSet_other {α : Type} (l : List (String × α)) (k k2 : String) (v : α)
    (hne : k2 ≠ k) : assocGet (assocSet l k v) k2 = assocGet l k2 := by
  have hkk2 : (k == k2) = false := by
    simp only [beq_eq_false_iff_ne, ne_eq]
    exact fun he => hne he.symm
  induction l with
  | nil => simp [assocSet, assocGet, List.find?, hkk2]
  | cons p ps ih =>
    by_cases h : (p.1 == k) = true
    · have hpk : p.1 = k := by simpa using h
      simp [assocSet, h, assocGet, List.find?, hkk2, hpk]
    · by_cases h2 : (p.1 == k2) = true
      · simp [assocSet, h, assocGet, List.find?, h2]
      · simp only [assocSet, h, Bool.false_eq_true, if_false]
        simpa [assocGet, List.find?, h2] using ih

theorem assocGet_assocDel_self {α : Type} (l : List (String × α)) (k : String) :
    assocGet (assocDel l k) k = none := by
  unfold assocGet
  rw [List.find?_eq_none.mpr]
  · rfl
  · intro p hp
    have := (List.mem_filter.mp hp).2
    simpa using this

theorem assocGet_assocDel_other {α : Type} (l : List (String × α)) (k k2 : String)
    (hne : k2 ≠ k) : assocGet (assocDel l k) k2 = assocGet l k2 := by
  induction l with
  | nil => rfl
  | cons p ps ih =>
    by_cases h : (p.1 == k) = true
    · have hpk : p.1 = k := by simpa [beq_iff_eq] using h
      have h2 : (p.1 == k2) = false := by
        simp [hpk, beq_iff_eq]
        exact fun he => hne he.symm
      simpa [assocDel, assocGet, List.find?, h, h2] using ih
    · by_cases h2 : (p.1 == k2) = true
      · simp [assocDel, assocGet, List.find?, h, h2]
      · simpa [assocDel, assocGet, List.find?, h, h2] using ih

theorem assocGet_eq_none_of_not_memKey {α : Type} (l : List (String × α)) (k : String)
    (h : k ∉ l.map Prod.fst) : assocGet l k = none := by
  unfold assocGet
  rw [List.find?_eq_none.mpr]
  · rfl
  · intro p hp hpk
    exact h (List.mem_map.mpr ⟨p, hp, by simpa [beq_iff_eq] using hpk⟩)

theorem memKey_assocSet {α : Type} (l : List (String × α)) (k k2 : String) (v : α)
    (h : k2 ∈ (assocSet l k v).map Prod.fst) : k2 ∈ l.map Prod.fst ∨ k2 = k := by
  induction l with
  | nil => simp [assocSet] at h; exact Or.inr h
  | cons p ps ih =>
    by_cases hk : (p.1 == k) = true
    · simp only [assocSet, hk, if_true, List.map_cons, List.mem_cons] at h
      rcases h with h | h
      · exact Or.inr h
      · exact Or.inl (by simp only [List.map_cons, List.mem_cons]; right; exact h)
    · simp only [assocSet, hk, Bool.false_eq_true, if_false, List.map_cons, List.mem_cons] at h
      rcases h with h | h
      · exact Or.inl (by simp [h])
      · rcases ih h with h2 | h2
        · exact Or.inl (by simp only [List.map_cons, List.mem_cons]; right; exact h2)
        · exact Or.inr h2

theorem assocSet_append_notMemKey {α : Type} (l : List (String × α)) (k : String) (v : α)
    (h : k ∉ l.map Prod.fst) : assocSet l k v = l ++ [(k, v)] := by
  induction l with
  | nil => rfl
  | cons p ps ih =>
    simp only [List.map_cons, List.mem_cons] at h
    push_neg at h
    have hk : (p.1 == k) = false := by simp [beq_iff_eq]; exact fun he => h.1 he.symm
    simp [assocSet, hk, ih h.2]

theorem assocSet_append_last {α : Type} (l : List (String × α)) (k : String) (c v : α)
    (h : k ∉ l.map Prod.fst) : assocSet (l ++ [(k, c)]) k v = l ++ [(k, v)] := by
  induction l with
  | nil => simp [assocSet]
  | cons p ps ih =>
    simp only [List.map_cons, List.mem_cons] at h
    push_neg at h
    have hk : (p.1 == k) = false := by simp [beq_iff_eq]; exact fun he => h.1 he.symm
    simp [assocSet, hk, ih h.2]

theorem assocCount_assocSet_absent {α : Type} (l : List (String × α)) (k : String) (v : α)
    (h : assocGet l k = none) : assocCount (assocSet l k v) k = 1 := by
  induction l with
  | nil => simp [assocSet, assocCount]
  | cons p ps ih =>
    by_cases hk : (p.1 == k) = true
    · exfalso
      simp [assocGet, List.find?, hk] at h
    · have hps : assocGet ps k = none := by
        simpa [assocGet, List.find?, hk] using h
      simpa [assocSet, hk, assocCount] using ih hps

theorem assocCount_assocSet_present {α : Type} (l : List (String × α)) (k : String) (v : α)
    (h : assocGet l k ≠ none) : assocCount (assocSet l k v) k = assocCount l k := by
  induction l with
  | nil => simp [assocGet] at h
  | cons p ps ih =>
    by_cases hk : (p.1 == k) = true
    · simp [assocSet, hk, assocCount, List.filter]
    · have hps : assocGet ps k ≠ none := by
        simpa [assocGet, List.find?, hk] using h
      simpa [assocSet, hk, assocCount, List.filter] using ih hps

theorem assocCount_eq_zero_of_absent {α : Type} (l : List (String × α)) (k : String)
    (h : assocGet l k = none) : assocCount l k = 0 := by
  induction l with
  | nil => rfl
  | cons p ps ih =>
    by_cases hk : (p.1 == k) = true
    · simp [assocGet, List.find?, hk] at h
    · have hps : assocGet ps k = none := by
        simpa [assocGet, List.find?, hk] using h
      simpa [assocCount, List.filter, hk] using ih hps

/-- The state reached by setting one record (with the double derivation
declared) and then unsetting it. -/
def afterSetUnset : MState :=
  munset "a" (mset cfgDouble (JVal.obj [("id", JVal.str "a"), ("x", JVal.num 1)])
    (constructManager cfgDouble [] [] []))

/-- C3 counterexample: unset removes the entry from all three stores,
but the (a, double) subscription created by the preceding set is still
registered afterwards — unset does not tear down subscriptions. -/
theorem unset_keeps_subscriptions_cex :
    assocGet afterSetUnset.raw "a" = none ∧
    assocGet afterSetUnset.withComp "a" = none ∧
    assocGet afterSetUnset.cacheMeta "a" = none ∧
    watchOf afterSetUnset "a" "double" = some 0 :=
  ⟨rfl, rfl, rfl, rfl⟩

/-- C3 (amended): unset(id) destroys the record — it nulls and then
removes the entry, leaving the key fully absent from the raw store, the
computed store and the cache metadata — but it leaves the subscription
table untouched: the (id, field) watches survive. -/
theorem unset_removes_entries (s : MState) (id : String) :
    assocGet (munset id s).raw id = none ∧
    assocGet (munset id s).withComp id = none ∧
    assocGet (munset id s).cacheMeta id = none ∧
    (munset id s).watches = s.watches := by
  refine ⟨?_, ?_, ?_, rfl⟩ <;> simp [munset, assocGet_assocDel_self]

/-- C10: on an id absent from the raw store, getRawClone returns null
and returns the state unchanged — no tombstone, no write. -/
theorem getRawClone_absent_no_write (s : MState) (id : String)
    (h : assocGet s.raw id = none) : mgetRawClone s id = (none, s) := by
  unfold mgetRawClone entryVal
  rw [h]

/-- C10 witness: getRawClone on a fresh manager. -/
theorem getRawClone_absent_no_write_witness :
    mgetRawClone (constructManager cfgPlain [] [] []) "zz"
      = (none, constructManager cfgPlain [] [] []) :=
  getRawClone_absent_no_write (constructManager cfgPlain [] [] []) "zz" rfl

/-- C8: on the stored record with id a and items [ (name y) ], the call
setChildOf(a, items/0/name, x) updates the nested field through the
path and rounds the write through set: getRaw(a) afterwards returns the
record with name x and everything else unchanged. -/
theorem setChildOf_nested_path :
    (mgetRaw cfgPlain "a" (msetChildOf cfgPlain "a" "items/0/name" (JVal.str "x")
      (mset cfgPlain
        (JVal.obj [("id", JVal.str "a"), ("items", JVal.arr [JVal.obj [("name", JVal.str "y")]])])
        (constructManager cfgPlain [] [] [])))).1
    = some (JVal.obj [("id", JVal.str "a"), ("items", JVal.arr [JVal.obj [("name", JVal.str "x")]])]) :=
  rfl

/-- mget on a nullish with-computed entry: the tombstone is written via
setRecordItem and the entry re-read. -/
theorem mget_nullish (cfg : MCfg) (id : String) (s : MState)
    (h : entryVal s.withComp id = none) :
    mget cfg id s = (entryVal (setRecordItem cfg id none s).withComp id,
      setRecordItem cfg id none s) := by
  simp only [mget, h, Option.isNone_none, if_true]

/-- The null branch of setRecordItem, spelled out. -/
theorem setRecordItem_none (cfg : MCfg) (id : String) (s : MState) :
    setRecordItem cfg id none s
      = { s with withComp := assocSet s.withComp id none,
                 raw := assocSet s.raw id none } := rfl

/-- C7: get on an id absent from both stores returns null after writing
a null tombstone; an immediately following get returns null again, and
the raw store then holds exactly one tombstone row for the id. -/
theorem get_missing_idempotent_tombstone (cfg : MCfg) (s : MState) (id : String)
    (hraw : assocGet s.raw id = none) (hwc : assocGet s.withComp id = none) :
    (mget cfg id s).1 = none ∧
    (mget cfg id (mget cfg id s).2).1 = none ∧
    assocGet (mget cfg id (mget cfg id s).2).2.raw id = some none ∧
    assocCount (mget cfg id (mget cfg id s).2).2.raw id = 1 := by
  have h0 : entryVal s.withComp id = none := by unfold entryVal; rw [hwc]
  have hg1 := mget_nullish cfg id s h0
  have h1 : entryVal (setRecordItem cfg id none s).withComp id = none := by
    unfold entryVal
    rw [setRecordItem_none]
    simp only [assocGet_assocSet_self]
  have hg2 := mget_nullish cfg id (setRecordItem cfg id none s) h1
  refine ⟨?_, ?_, ?_, ?_⟩
  · rw [hg1]; exact h1
  · rw [hg1]
    simp only
    rw [hg2]
    unfold entryVal
    rw [setRecordItem_none, setRecordItem_none]
    simp only [assocGet_assocSet_self]
  · rw [hg1]
    simp only
    rw [hg2]
    simp only
    rw [setRecordItem_none, setRecordItem_none]
    simp only [assocGet_assocSet_self]
  · rw [hg1]
    simp only
    rw [hg2]
    simp only
    rw [setRecordItem_none, setRecordItem_none]
    simp only
    have hinner : assocCount (assocSet s.raw id (none : Option JVal)) id = 1 :=
      assocCount_assocSet_absent s.raw id none hraw
    have houter : assocGet (assocSet s.raw id (none : Option JVal)) id ≠ none := by
      rw [assocGet_assocSet_self]; exact fun hx => Option.noConfusion hx
    rw [assocCount_assocSet_present _ _ _ houter, hinner]

/-- C7 witness: the two gets on a fresh manager with no entry for the
id. -/
theorem get_missing_idempotent_tombstone_witness :
    (mget cfgPlain "a" (constructManager cfgPlain [] [] [])).1 = none ∧
    (mget cfgPlain "a" (mget cfgPlain "a" (constructManager cfgPlain [] [] [])).2).1 = none ∧
    assocGet (mget cfgPlain "a"
      (mget cfgPlain "a" (constructManager cfgPlain [] [] [])).2).2.raw "a" = some none ∧
    assocCount (mget cfgPlain "a"
      (mget cfgPlain "a" (constructManager cfgPlain [] [] [])).2).2.raw "a" = 1 :=
  get_missing_idempotent_tombstone cfgPlain (constructManager cfgPlain [] [] []) "a" rfl rfl

/-- All three stores hold a null payload under the key. -/
def nullTripleAt (s : MState) (id : String) : Prop :=
  assocGet s.raw id = some none ∧ assocGet s.withComp id = some none ∧
  assocGet s.cacheMeta id = some none

/-- A sweep step for a different key does not touch the entries of
id. -/
theorem cleanUpStep_other (cfg : MCfg) (s : MState) (p : String × Option Int) (id : String)
    (h : p.1 ≠ id) :
    assocGet (cleanUpStep cfg s p).raw id = assocGet s.raw id ∧
    assocGet (cleanUpStep cfg s p).withComp id = assocGet s.withComp id ∧
    assocGet (cleanUpStep cfg s p).cacheMeta id = assocGet s.cacheMeta id := by
  obtain ⟨pid, v0⟩ := p
  have hpid : pid ≠ id := h
  cases v0 with
  | none => exact ⟨rfl, rfl, rfl⟩
  | some e =>
    by_cases he : e < cfg.now
    · simp only [cleanUpStep]
      rw [if_pos he]
      have hid : id ≠ pid := fun hx => hpid hx.symm
      refine ⟨?_, ?_, ?_⟩ <;>
        simp [assocGet_assocSet_other _ _ _ _ hid, assocGet_assocDel_other _ _ _ hid]
    · simp only [cleanUpStep]
      rw [if_neg he]
      exact ⟨rfl, rfl, rfl⟩

/-- A sweep step preserves an established null triple. -/
theorem cleanUpStep_preserves_nullTriple (cfg : MCfg) (s : MState) (p : String × Option Int)
    (id : String) (h : nullTripleAt s id) : nullTripleAt (cleanUpStep cfg s p) id := by
  by_cases hpid : p.1 = id
  · obtain ⟨pid, v0⟩ := p
    cases v0 with
    | none => exact h
    | some e =>
      by_cases he : e < cfg.now
      · have hpe : pid = id := hpid
        subst hpe
        simp only [cleanUpStep]
        rw [if_pos he]
        exact ⟨by simp [assocGet_assocSet_self], by simp [assocGet_assocSet_self],
          by simp [assocGet_assocSet_self]⟩
      · simp only [cleanUpStep]
        rw [if_neg he]
        exact h
  · have hs := cleanUpStep_other cfg s p id hpid
    exact ⟨hs.1.trans h.1, hs.2.1.trans h.2.1, hs.2.2.trans h.2.2⟩

/-- Processing the snapshot entry (id, some e) with an expired e
installs the null triple for id. -/
theorem cleanUpStep_evicts (cfg : MCfg) (s : MState) (e : Int) (id : String)
    (he : e < cfg.now) : nullTripleAt (cleanUpStep cfg s (id, some e)) id := by
  simp only [cleanUpStep]
  rw [if_pos he]
  exact ⟨by simp [assocGet_assocSet_self], by simp [assocGet_assocSet_self],
    by simp [assocGet_assocSet_self]⟩

/-- Folding sweep steps preserves an established null triple. -/
theorem cleanFold_preserves_nullTriple (cfg : MCfg) (L : List (String × Option Int))
    (s : MState) (id : String) (h : nullTripleAt s id) :
    nullTripleAt (L.foldl (cleanUpStep cfg) s) id := by
  induction L generalizing s with
  | nil => exact h
  | cons q qs ih =>
    exact ih (cleanUpStep cfg s q) (cleanUpStep_preserves_nullTriple cfg s q id h)

/-- A snapshot containing an expired entry for id leaves the null
triple for id after the sweep. -/
theorem cleanFold_evicts (cfg : MCfg) (L : List (String × Option Int)) (s : MState)
    (id : String) (e : Int) (hmem : (id, some e) ∈ L) (he : e < cfg.now) :
    nullTripleAt (L.foldl (cleanUpStep cfg) s) id := by
  induction L generalizing s with
  | nil => cases hmem
  | cons q qs ih =>
    rcases List.mem_cons.mp hmem with hq | hq
    · subst hq
      exact cleanFold_preserves_nullTriple cfg qs _ id (cleanUpStep_evicts cfg s e id he)
    · exact ih (cleanUpStep cfg s q) hq

/-- A snapshot containing no expired entry for id leaves the entries of
id untouched by the sweep. -/
theorem cleanFold_untouched (cfg : MCfg) (L : List (String × Option Int)) (s : MState)
    (id : String) (h : ∀ e : Int, (id, some e) ∈ L → ¬ e < cfg.now) :
    assocGet (L.foldl (cleanUpStep cfg) s).raw id = assocGet s.raw id ∧
    assocGet (L.foldl (cleanUpStep cfg) s).withComp id = assocGet s.withComp id ∧
    assocGet (L.foldl (cleanUpStep cfg) s).cacheMeta id = assocGet s.cacheMeta id := by
  induction L generalizing s with
  | nil => exact ⟨rfl, rfl, rfl⟩
  | cons q qs ih =>
    have hstep : assocGet (cleanUpStep cfg s q).raw id = assocGet s.raw id ∧
        assocGet (cleanUpStep cfg s q).withComp id = assocGet s.withComp id ∧
        assocGet (cleanUpStep cfg s q).cacheMeta id = assocGet s.cacheMeta id := by
      by_cases hqid : q.1 = id
      · obtain ⟨qid, v0⟩ := q
        cases v0 with
        | none => exact ⟨rfl, rfl, rfl⟩
        | some e =>
          have hne : ¬ e < cfg.now := by
            apply h
            rw [List.mem_cons]
            left
            have hq : qid = id := hqid
            rw [hq]
          simp only [cleanUpStep]
          rw [if_neg hne]
          exact ⟨rfl, rfl, rfl⟩
      · exact cleanUpStep_other cfg s q id hqid
    have htail := ih (cleanUpStep cfg s q) (fun e hm => h e (List.mem_cons.mpr (Or.inr hm)))
    exact ⟨htail.1.trans hstep.1, htail.2.1.trans hstep.2.1, htail.2.2.trans hstep.2.2⟩

/-- A reconciliation step only rewrites the raw store. -/
theorem reconcileStep_frame (s : MState) (p : String × Option JVal) :
    (reconcileStep s p).withComp = s.withComp ∧ (reconcileStep s p).cacheMeta = s.cacheMeta ∧
    (reconcileStep s p).watches = s.watches := by
  simp only [reconcileStep]
  repeat' split
  all_goals exact ⟨rfl, rfl, rfl⟩

/-- Folding reconciliation steps only rewrites the raw store. -/
theorem reconcileFold_frame (L : List (String × Option JVal)) (s : MState) :
    (L.foldl reconcileStep s).withComp = s.withComp ∧
    (L.foldl reconcileStep s).cacheMeta = s.cacheMeta ∧
    (L.foldl reconcileStep s).watches = s.watches := by
  induction L generalizing s with
  | nil => exact ⟨rfl, rfl, rfl⟩
  | cons q qs ih =>
    have hs := reconcileStep_frame s q
    have ht := ih (reconcileStep s q)
    exact ⟨ht.1.trans hs.1, ht.2.1.trans hs.2.1, ht.2.2.trans hs.2.2⟩

/-- reconcileRaw only rewrites the raw store. -/
theorem reconcileRaw_frame (s : MState) :
    (reconcileRaw s).withComp = s.withComp ∧ (reconcileRaw s).cacheMeta = s.cacheMeta ∧
    (reconcileRaw s).watches = s.watches :=
  reconcileFold_frame s.withComp s

/-- A persistence-enabled configuration with no declared getters. -/
def cfgPersistW : MCfg := { gs := [], persist := true, now := 0, ttl := none }

/-- A manager constructed against persisted state holding a record for
id a whose cache metadata expired 1000 ms before now. -/
def afterExpiredConstruct : MState :=
  constructManager cfgPersistW
    [("a", some (JVal.obj [("id", JVal.str "a"), ("x", JVal.num 1), ("computed", JVal.obj [])]))]
    []
    [("a", some (-1000))]

/-- C2 counterexample: after the construction sweep, the expired id is
not removed from any store — the delete is followed by a null
re-assignment, so all three stores still hold the key, mapped to
null. -/
theorem construction_sweep_not_removed_cex :
    assocGet afterExpiredConstruct.raw "a" = some none ∧
    assocGet afterExpiredConstruct.withComp "a" = some none ∧
    assocGet afterExpiredConstruct.cacheMeta "a" = some none :=
  ⟨rfl, rfl, rfl⟩

/-- Construction without initial items is the sweep applied to the
reconciled seeded state. -/
theorem constructManager_no_initial (cfg : MCfg) (pwc : List (String × Option JVal))
    (pm : List (String × Option Int)) :
    constructManager cfg pwc [] pm
      = cleanUpCache cfg (reconcileRaw
          { raw := [], withComp := if cfg.persist then pwc else [],
            cacheMeta := if cfg.persist then pm else [],
            watches := [], nextTok := 0, derivCalls := 0 }) := rfl

/-- getRaw returns null on a nullish raw entry (writing the tombstone
on the way). -/
theorem mgetRaw_nullish_val (cfg : MCfg) (id : String) (s : MState)
    (h : entryVal s.raw id = none) : (mgetRaw cfg id s).1 = none := by
  simp only [mgetRaw, h, Option.isNone_none, if_true]
  unfold entryVal
  rw [setRecordItem_none]
  simp [assocGet_assocSet_self]

/-- C2 (amended): during construction of a persistence-enabled manager
(with no initial items) exactly one synchronous sweep runs; every
cache-metadata entry whose expires timestamp is strictly earlier than
the current time is evicted — deleted and then re-assigned null in the
raw store, the computed store and the metadata store, so each of the
three keys ends present with a null payload rather than removed, and
getRaw(id) returns null immediately after construction with no explicit
eviction call — while ids with no expired metadata entry are left
untouched by the sweep. -/
theorem construction_sweep_evicts (cfg : MCfg) (pwc : List (String × Option JVal))
    (pm : List (String × Option Int)) (id : String) (e : Int)
    (hp : cfg.persist = true) :
    ((id, some e) ∈ pm → e < cfg.now →
      nullTripleAt (constructManager cfg pwc [] pm) id ∧
      (mgetRaw cfg id (constructManager cfg pwc [] pm)).1 = none) ∧
    (∀ s : MState, (∀ e2 : Int, (id, some e2) ∈ s.cacheMeta → ¬ e2 < cfg.now) →
      assocGet (cleanUpCache cfg s).raw id = assocGet s.raw id ∧
      assocGet (cleanUpCache cfg s).withComp id = assocGet s.withComp id ∧
      assocGet (cleanUpCache cfg s).cacheMeta id = assocGet s.cacheMeta id) := by
  constructor
  · intro hmem he
    have hmeta : (reconcileRaw
        { raw := [], withComp := if cfg.persist then pwc else [],
          cacheMeta := if cfg.persist then pm else [],
          watches := [], nextTok := 0, derivCalls := 0 } : MState).cacheMeta = pm := by
      rw [(reconcileRaw_frame _).2.1]
      simp [hp]
    have htriple : nullTripleAt (constructManager cfg pwc [] pm) id := by
      rw [constructManager_no_initial]
      unfold cleanUpCache
      rw [hmeta]
      exact cleanFold_evicts cfg pm _ id e hmem he
    refine ⟨htriple, ?_⟩
    apply mgetRaw_nullish_val
    unfold entryVal
    rw [htriple.1]
  · intro s hno
    unfold cleanUpCache
    exact cleanFold_untouched cfg s.cacheMeta s id hno

/-- C2 witness: the amended sweep theorem at the concrete persisted
seed of the spec scenario (expires = now - 1000 for id a), plus the
untouched clause at a state whose only metadata entry for b is
unexpired. -/
theorem construction_sweep_evicts_witness :
    (nullTripleAt (constructManager cfgPersistW
      [("a", some (JVal.obj [("id", JVal.str "a"), ("x", JVal.num 1),
        ("computed", JVal.obj [])]))] [] [("a", some (-1000))]) "a" ∧
     (mgetRaw cfgPersistW "a" (constructManager cfgPersistW
      [("a", some (JVal.obj [("id", JVal.str "a"), ("x", JVal.num 1),
        ("computed", JVal.obj [])]))] [] [("a", some (-1000))])).1 = none) ∧
    (assocGet (cleanUpCache cfgPersistW
        { raw := [("b", some (JVal.obj [("id", JVal.str "b")]))],
          withComp := [], cacheMeta := [("b", some 500)],
          watches := [], nextTok := 0, derivCalls := 0 }).raw "b"
      = some (some (JVal.obj [("id", JVal.str "b")]))) := by
  have h := construction_sweep_evicts cfgPersistW
    [("a", some (JVal.obj [("id", JVal.str "a"), ("x", JVal.num 1),
      ("computed", JVal.obj [])]))] [("a", some (-1000))] "a" (-1000) rfl
  have hB := construction_sweep_evicts cfgPersistW
    [("a", some (JVal.obj [("id", JVal.str "a"), ("x", JVal.num 1),
      ("computed", JVal.obj [])]))] [("a", some (-1000))] "b" 0 rfl
  refine ⟨h.1 (by decide) (by decide), ?_⟩
  have h2 := (hB.2
    { raw := [("b", some (JVal.obj [("id", JVal.str "b")]))],
      withComp := [], cacheMeta := [("b", some 500)],
      watches := [], nextTok := 0, derivCalls := 0 }
    (by
      intro e2 hm
      simp only [List.mem_singleton, Prod.mk.injEq] at hm
      rcases hm with ⟨hb, he2⟩
      cases he2
      decide)).1
  rw [h2]
  rfl

/-- A registered watch token survives the transition from s to s2. -/
def WatchesMono (s s2 : MState) : Prop :=
  ∀ id k t, watchOf s id k = some t → watchOf s2 id k = some t

theorem WatchesMono.rfl (s : MState) : WatchesMono s s := fun _ _ _ h => h

theorem WatchesMono.trans {s1 s2 s3 : MState} (h1 : WatchesMono s1 s2)
    (h2 : WatchesMono s2 s3) : WatchesMono s1 s3 :=
  fun id k t h => h2 id k t (h1 id k t h)

/-- The watch callback never touches the subscription table. -/
theorem watchCallback_watches (id k : String) (fn : DerivFn) (s : MState) :
    (watchCallback id k fn s).2.watches = s.watches := by
  simp only [watchCallback, bumpCalls]
  split <;> rfl

/-- The watch callback never touches the raw store, the metadata, or
the counter fields other than derivCalls. -/
theorem watchCallback_frame (id k : String) (fn : DerivFn) (s : MState) :
    (watchCallback id k fn s).2.raw = s.raw ∧
    (watchCallback id k fn s).2.cacheMeta = s.cacheMeta ∧
    (watchCallback id k fn s).2.nextTok = s.nextTok := by
  simp only [watchCallback, bumpCalls]
  split <;> exact ⟨rfl, rfl, rfl⟩

/-- A state transition that keeps the subscription table keeps every
token. -/
theorem WatchesMono.of_eq {s s2 : MState} (h : s2.watches = s.watches) : WatchesMono s s2 := by
  intro id k t ht
  rw [watchOf, h]
  rw [watchOf] at ht
  exact ht

/-- The subscription table after a fresh registration. -/
theorem watchGetter_watches_none (id k : String) (fn : DerivFn) (s : MState)
    (hw : watchOf s id k = none) :
    (watchGetter id k fn s).2.watches
      = assocSet s.watches id (assocSet
          (match assocGet s.watches id with | some f => f | none => []) k s.nextTok) := by
  simp only [watchGetter, hw]
  rw [watchCallback_watches, (watchCallback_frame id k fn s).2.2]

theorem watchGetter_mono (id k : String) (fn : DerivFn) (s : MState) :
    WatchesMono s (watchGetter id k fn s).2 := by
  intro id2 k2 t ht
  cases hw : watchOf s id k with
  | some t0 =>
    unfold watchGetter
    rw [hw]
    exact ht
  | none =>
    rw [watchOf, watchGetter_watches_none id k fn s hw]
    rw [watchOf] at ht
    by_cases hid : id2 = id
    · subst hid
      rw [assocGet_assocSet_self]
      cases hf : assocGet s.watches id2 with
      | none => simp [hf] at ht
      | some fields =>
        simp only [hf] at ht
        show assocGet (assocSet fields k s.nextTok) k2 = some t
        have hkk : k2 ≠ k := by
          intro he
          subst he
          simp only [watchOf, hf] at hw
          rw [ht] at hw
          cases hw
        rw [assocGet_assocSet_other _ _ _ _ hkk]
        exact ht
    · rw [assocGet_assocSet_other _ _ _ _ hid]
      exact ht

/-- An initComputeds step preserves registered tokens. -/
theorem initComputedsStep_mono (id : String) (item : Option JVal)
    (acc : (List (String × JVal)) × MState) (g : String × DerivFn) :
    WatchesMono acc.2 (initComputedsStep id item acc g).2 := by
  cases item with
  | none => exact WatchesMono.rfl _
  | some iv =>
    cases hw : watchOf acc.2 id g.1 with
    | none =>
      intro id2 k2 t ht
      have h2 := watchGetter_mono id g.1 g.2 acc.2 id2 k2 t ht
      simp only [initComputedsStep, hw]
      exact h2
    | some t0 =>
      intro id2 k2 t ht
      simp only [initComputedsStep, hw]
      exact ht

/-- Folding initComputeds steps preserves registered tokens. -/
theorem initComputedsFold_mono (id : String) (item : Option JVal)
    (gs : List (String × DerivFn)) (acc : (List (String × JVal)) × MState) :
    WatchesMono acc.2 (gs.foldl (initComputedsStep id item) acc).2 := by
  induction gs generalizing acc with
  | nil => exact WatchesMono.rfl _
  | cons g gs ih =>
    exact (initComputedsStep_mono id item acc g).trans (ih (initComputedsStep id item acc g))

theorem initComputeds_mono (cfg : MCfg) (id : String) (item : Option JVal) (s : MState) :
    WatchesMono s (initComputeds cfg id item s).2 :=
  initComputedsFold_mono id item cfg.gs ([], s)

theorem setRecordItem_mono (cfg : MCfg) (id : String) (value : Option JVal) (s : MState) :
    WatchesMono s (setRecordItem cfg id value s) := by
  cases value with
  | none => exact WatchesMono.rfl _
  | some v =>
    show WatchesMono s (setRecordItemRest cfg id s
      (if isItemWithComputed (some v) then itemWithComputedToRaw (some v) else some v))
    cases (if isItemWithComputed (some v) then itemWithComputedToRaw (some v) else some v) with
    | none => exact WatchesMono.of_eq rfl
    | some rawv =>
      simp only [setRecordItemRest]
      intro id2 k2 t ht
      have h2 := initComputeds_mono cfg id (some rawv)
        { s with raw := assocSet s.raw id (some rawv) } id2 k2 t ht
      split
      · exact h2
      · exact h2

theorem watchGetterFold_mono (id : String) (gs : List (String × DerivFn)) (s : MState) :
    WatchesMono s (gs.foldl (watchGetterStep id) s) := by
  induction gs generalizing s with
  | nil => exact WatchesMono.rfl _
  | cons g gs ih =>
    exact (watchGetter_mono id g.1 g.2 s).trans (ih (watchGetterStep id s g))

theorem setAndWatchGetters_mono (cfg : MCfg) (id : String) (item : Option JVal) (s : MState) :
    WatchesMono s (setAndWatchGetters cfg id item s) := by
  simp only [setAndWatchGetters]
  split
  · exact setRecordItem_mono cfg id item s
  · cases item with
    | none => exact setRecordItem_mono cfg id none s
    | some iv =>
      show WatchesMono s (if isEqual (JVal.obj (initComputeds cfg id (some iv) s).1)
          (computedMapOf (initComputeds cfg id (some iv) s).2 id) = true then
            setRecordItem cfg id (some iv) (initComputeds cfg id (some iv) s).2
          else watchComputedGetters cfg id (setRecordItem cfg id
            (some (JVal.obj (assocSet (jsOwnProps iv) "computed"
              (JVal.obj (initComputeds cfg id (some iv) s).1))))
            (initComputeds cfg id (some iv) s).2))
      split
      · exact (initComputeds_mono cfg id (some iv) s).trans
          (setRecordItem_mono cfg id (some iv) _)
      · exact ((initComputeds_mono cfg id (some iv) s).trans
          (setRecordItem_mono cfg id _ _)).trans (watchGetterFold_mono id cfg.gs _)

theorem mset_mono (cfg : MCfg) (item : JVal) (s : MState) :
    WatchesMono s (mset cfg item s) := by
  simp only [mset]
  split
  · exact WatchesMono.rfl _
  · split
    · exact WatchesMono.rfl _
    · split
      · exact setAndWatchGetters_mono cfg _ _ s
      · exact WatchesMono.rfl _

theorem msetChildOf_mono (cfg : MCfg) (id key : String) (value : JVal) (s : MState) :
    WatchesMono s (msetChildOf cfg id key value s) := by
  simp only [msetChildOf]
  split
  · exact WatchesMono.rfl _
  · split
    · exact mset_mono cfg _ s
    · exact WatchesMono.rfl _

theorem munset_watches (id : String) (s : MState) : (munset id s).watches = s.watches := rfl

theorem mreset_watches (s : MState) : (mreset s).watches = s.watches := by
  unfold mreset
  generalize (s.withComp.map Prod.fst) = L
  induction L generalizing s with
  | nil => rfl
  | cons q qs ih => exact (ih (munset q s)).trans (munset_watches q s)

theorem mupdate_mono (cfg : MCfg) (items : List JVal) (s : MState) :
    WatchesMono s (mupdate cfg items s) := by
  unfold mupdate
  induction items generalizing s with
  | nil => exact WatchesMono.rfl _
  | cons it its ih => exact (mset_mono cfg it s).trans (ih (mset cfg it s))

theorem mget_mono (cfg : MCfg) (id : String) (s : MState) :
    WatchesMono s (mget cfg id s).2 := by
  simp only [mget]
  split
  · exact setRecordItem_mono cfg id none s
  · exact WatchesMono.rfl _

theorem mgetRaw_mono (cfg : MCfg) (id : String) (s : MState) :
    WatchesMono s (mgetRaw cfg id s).2 := by
  simp only [mgetRaw]
  split
  · exact setRecordItem_mono cfg id none s
  · exact WatchesMono.rfl _

/-- Every manager step preserves registered watch tokens: nothing in
the public surface or the reactive layer ever replaces or removes a
subscription. -/
theorem step_watchesMono (cfg : MCfg) (s s2 : MState) (hs : Step cfg s s2) :
    WatchesMono s s2 := by
  cases hs with
  | set item h => exact mset_mono cfg item s
  | setChildOf id key value h => exact msetChildOf_mono cfg id key value s
  | update items h => exact mupdate_mono cfg items s
  | overwrite items h =>
    intro id k t ht
    apply mupdate_mono cfg items (mreset s) id k t
    rw [watchOf, mreset_watches]
    rw [watchOf] at ht
    exact ht
  | unset id =>
    intro id2 k t ht
    rw [watchOf, munset_watches]
    rw [watchOf] at ht
    exact ht
  | reset =>
    intro id2 k t ht
    rw [watchOf, mreset_watches]
    rw [watchOf] at ht
    exact ht
  | get id => exact mget_mono cfg id s
  | getRaw id => exact mgetRaw_mono cfg id s
  | fire id k fn hw hf =>
    intro id2 k2 t ht
    rw [watchOf, fireWatch, watchCallback_watches]
    rw [watchOf] at ht
    exact ht

/-- C4: for every (id, field) pair at most one live subscription ever
exists — requesting a subscription for an already-subscribed pair is a
checked no-op that returns the cached field and leaves the state
untouched, and every public operation and watch firing preserves the
registered token, so across any number of set calls the watch for each
declared derivation field is created exactly once and never
replaced. -/
theorem subscription_idempotent_per_pair :
    (∀ (s : MState) (id k : String) (fn : DerivFn) (t : Nat),
      watchOf s id k = some t → watchGetter id k fn s = (computedFieldOf s id k, s)) ∧
    (∀ (cfg : MCfg) (s s2 : MState) (id k : String) (t : Nat), Step cfg s s2 →
      watchOf s id k = some t → watchOf s2 id k = some t) := by
  constructor
  · intro s id k fn t ht
    unfold watchGetter
    rw [ht]
  · intro cfg s s2 id k t hs ht
    exact step_watchesMono cfg s s2 hs id k t ht

/-- C4 witness: after a first set with the double derivation declared,
the (a, double) subscription exists under token 0; a repeated
watchGetter call is a no-op, and a second set of the same id preserves
the token. -/
theorem subscription_idempotent_per_pair_witness :
    watchGetter "a" "double" doubleFn
      (mset cfgDouble (JVal.obj [("id", JVal.str "a"), ("x", JVal.num 2)])
        (constructManager cfgDouble [] [] []))
      = (computedFieldOf (mset cfgDouble (JVal.obj [("id", JVal.str "a"), ("x", JVal.num 2)])
          (constructManager cfgDouble [] [] [])) "a" "double",
         mset cfgDouble (JVal.obj [("id", JVal.str "a"), ("x", JVal.num 2)])
          (constructManager cfgDouble [] [] [])) ∧
    watchOf (mset cfgDouble (JVal.obj [("id", JVal.str "a"), ("x", JVal.num 5)])
      (mset cfgDouble (JVal.obj [("id", JVal.str "a"), ("x", JVal.num 2)])
        (constructManager cfgDouble [] [] []))) "a" "double" = some 0 := by
  constructor
  · exact subscription_idempotent_per_pair.1 _ "a" "double" doubleFn 0 rfl
  · exact subscription_idempotent_per_pair.2 cfgDouble _ _ "a" "double" 0
      (Step.set _ (JVal.obj [("id", JVal.str "a"), ("x", JVal.num 5)]) rfl) rfl

/-- The exposed getter on a subscribed (id, name) pair reduces to the
cached-or-recompute decision: with no extra arguments and a truthy
cached value the cache wins, otherwise the derivation is invoked
fresh. -/
theorem cacheMappedComputedGetter_watched (name : String) (fn : DerivFn) (id : String)
    (args : List JVal) (s : MState) (t : Nat) (hw : watchOf s id name = some t) :
    cacheMappedComputedGetter name fn (JVal.str id) args s
      = if (args.length == 0 && jsTruthy (computedFieldOf s id name)) = true
        then (computedFieldOf s id name, s)
        else (fn (rawGetterOf s) (JVal.str id) args, bumpCalls s) := by
  simp only [cacheMappedComputedGetter, isNullish, Bool.false_eq_true, if_false, hw]

/-- C5 (amended): on an id with an established subscription for field
name, calling the exposed getter with zero extra arguments returns the
cached value without invoking the derivation whenever the cached value
is truthy; a falsy cached value (null, undefined, false, 0 or the empty
string) falls through to a fresh invocation even though it exists, and
any call with one or more extra arguments always invokes the derivation
afresh, bypassing the memo. -/
theorem getter_memoization_truthy (name : String) (fn : DerivFn) (id : String)
    (args : List JVal) (s : MState) (t : Nat) (hw : watchOf s id name = some t) :
    (args = [] → jsTruthy (computedFieldOf s id name) = true →
      cacheMappedComputedGetter name fn (JVal.str id) args s
        = (computedFieldOf s id name, s)) ∧
    (args ≠ [] → cacheMappedComputedGetter name fn (JVal.str id) args s
      = (fn (rawGetterOf s) (JVal.str id) args, bumpCalls s)) := by
  constructor
  · intro ha htr
    subst ha
    rw [cacheMappedComputedGetter_watched name fn id [] s t hw]
    simp [htr]
  · intro ha
    rw [cacheMappedComputedGetter_watched name fn id args s t hw]
    have hlen : (args.length == 0) = false := by
      cases args with
      | nil => exact absurd rfl ha
      | cons a as => rfl
    simp [hlen]

/-- The state after setting x = 0 for id a and letting the double watch
fire: the cached double value is the falsy number 0. -/
def afterZeroSet : MState :=
  fireWatch "a" "double" doubleFn
    (mset cfgDouble (JVal.obj [("id", JVal.str "a"), ("x", JVal.num 0)])
      (constructManager cfgDouble [] [] []))

/-- C5 counterexample: with a cached value present (the number 0, which
exists but is falsy) and a live subscription, the zero-argument getter
call still invokes the derivation — the ghost invocation counter is
bumped — instead of returning the cached value without recomputation. -/
theorem getter_memoization_falsy_cex :
    computedFieldOf afterZeroSet "a" "double" = JVal.num 0 ∧
    watchOf afterZeroSet "a" "double" = some 0 ∧
    cacheMappedComputedGetter "double" doubleFn (JVal.str "a") [] afterZeroSet
      = (JVal.num 0, bumpCalls afterZeroSet) ∧
    (bumpCalls afterZeroSet).derivCalls = afterZeroSet.derivCalls + 1 :=
  ⟨rfl, rfl, rfl, rfl⟩

/-- The state after setting x = 2 for id a and letting the double watch
fire: the cached double value is the truthy number 4. -/
def afterTwoSet : MState :=
  fireWatch "a" "double" doubleFn
    (mset cfgDouble (JVal.obj [("id", JVal.str "a"), ("x", JVal.num 2)])
      (constructManager cfgDouble [] [] []))

/-- C5 witness: the memoization theorem at a concrete subscribed state
with a truthy cached value (double of x = 2 after the watch fire), for
both the zero-argument hit and the extra-argument bypass. -/
theorem getter_memoization_truthy_witness :
    cacheMappedComputedGetter "double" doubleFn (JVal.str "a") [] afterTwoSet
      = (computedFieldOf afterTwoSet "a" "double", afterTwoSet) ∧
    cacheMappedComputedGetter "double" doubleFn (JVal.str "a") [JVal.num 7] afterTwoSet
      = (doubleFn (rawGetterOf afterTwoSet) (JVal.str "a") [JVal.num 7],
         bumpCalls afterTwoSet) := by
  constructor
  · exact (getter_memoization_truthy "double" doubleFn "a" [] afterTwoSet 0 rfl).1 rfl rfl
  · exact (getter_memoization_truthy "double" doubleFn "a" [JVal.num 7] afterTwoSet 0 rfl).2
      (by intro h; cases h)

theorem jsValidate_false (v : JVal) : jsValidate false v = v := rfl

/-- A fold whose step fixes the accumulator is the identity. -/
theorem foldl_id_of_step {α β : Type} (f : β → α → β) (b : β) (h : ∀ a, f b a = b) :
    ∀ K : List α, K.foldl f b = b := by
  intro K
  induction K with
  | nil => rfl
  | cons k ks ih =>
    rw [List.foldl_cons, h k]
    exact ih

theorem sizeJ_pos (v : JVal) : 1 ≤ sizeJ v := by
  cases v <;> simp [sizeJ]

theorem sizeJP_lt_of_mem : ∀ (l : List (String × JVal)) (p : String × JVal), p ∈ l →
    sizeJ p.2 < 1 + sizeJP l := by
  intro l
  induction l with
  | nil => intro p hp; cases hp
  | cons q qs ih =>
    intro p hp
    rcases List.mem_cons.mp hp with h | h
    · subst h
      obtain ⟨a, b⟩ := p
      simp only [sizeJP]
      omega
    · have h2 := ih p h
      obtain ⟨a, b⟩ := q
      simp only [sizeJP]
      omega

theorem sizeJL_lt_of_mem : ∀ (xs : List JVal) (x : JVal), x ∈ xs →
    sizeJ x < 1 + sizeJL xs := by
  intro xs
  induction xs with
  | nil => intro x hx; cases hx
  | cons y ys ih =>
    intro x hx
    rcases List.mem_cons.mp hx with h | h
    · subst h
      simp only [sizeJL]
      omega
    · have h2 := ih x h
      simp only [sizeJL]
      omega

/-- A property value of v that is object-like is strictly smaller than
v (only objects and arrays expose object-like children). -/
theorem mem_of_mem_enumFrom_snd : ∀ (xs : List JVal) (n : Nat) (q : Nat × JVal),
    q ∈ xs.enumFrom n → q.2 ∈ xs := by
  intro xs
  induction xs with
  | nil => intro n q hq; cases hq
  | cons y ys ih =>
    intro n q hq
    simp only [List.enumFrom] at hq
    rcases List.mem_cons.mp hq with h | h
    · subst h
      exact List.mem_cons_self _ _
    · exact List.mem_cons_of_mem _ (ih (n + 1) q h)

theorem sizeJ_jsGet_lt (v : JVal) (k : String)
    (h : jsIsObjectNonNull (jsGet v k) = true) : sizeJ (jsGet v k) < sizeJ v := by
  cases hf : (jsOwnProps v).find? (fun p => p.1 == k) with
  | none =>
    exfalso
    simp [jsGet, hf, jsIsObjectNonNull] at h
  | some p =>
    have hgv : jsGet v k = p.2 := by simp [jsGet, hf]
    rw [hgv] at h ⊢
    have hmem := List.mem_of_find?_eq_some hf
    cases v with
    | null => cases hmem
    | undef => cases hmem
    | bool b => cases hmem
    | num n => cases hmem
    | str s =>
      exfalso
      simp only [jsOwnProps, List.mem_map] at hmem
      obtain ⟨q, hq1, hq2⟩ := hmem
      rw [← hq2] at h
      simp [jsIsObjectNonNull] at h
    | arr xs =>
      simp only [jsOwnProps, List.mem_map] at hmem
      obtain ⟨q, hq, hq2⟩ := hmem
      have hx : q.2 ∈ xs := mem_of_mem_enumFrom_snd xs 0 q hq
      have hp2 : p.2 = q.2 := by rw [← hq2]
      rw [hp2]
      simp only [sizeJ]
      exact sizeJL_lt_of_mem xs q.2 hx
    | obj l =>
      simp only [jsOwnProps] at hmem
      simp only [sizeJ]
      exact sizeJP_lt_of_mem l p hmem
    | jmap es => cases hmem
    | jset xs => cases hmem

theorem jsStrictEq_refl_nonObject (v : JVal) (h : jsIsObjectNonNull v = false) :
    jsStrictEq v v = true := by
  cases v <;> simp_all [jsStrictEq, jsIsObjectNonNull]

/-- The deep diff of a value against itself produces no differences and
leaves the accumulator unchanged, given enough fuel. -/
theorem diffObjectsDeepGo_refl : ∀ (fuel : Nat) (v : JVal) (path : List String)
    (acc : List (String × JVal)), sizeJ v < fuel →
    diffObjectsDeepGo fuel v v path false acc = ([], acc) := by
  intro fuel
  induction fuel with
  | zero => intro v path acc hsz; exact absurd hsz (Nat.not_lt_zero _)
  | succ fuel ih =>
    intro v path acc hsz
    rw [diffObjectsDeepGo]
    have hprev : sizeJ (if isNullish v then JVal.obj [] else v) ≤ sizeJ v := by
      split
      · simpa [sizeJ, sizeJP] using sizeJ_pos v
      · exact Nat.le_refl _
    generalize (if isNullish v then JVal.obj [] else v) = prev at hprev
    refine foldl_id_of_step _ _ ?_ _
    intro key
    dsimp only
    rw [jsValidate_false]
    by_cases hobj : jsIsObjectNonNull (jsGet prev key) = true
    · rw [if_pos (by simp [hobj])]
      have hchild : sizeJ (jsGet prev key) < fuel := by
        have h1 := sizeJ_jsGet_lt prev key hobj
        omega
      rw [ih (jsGet prev key) (path ++ [key]) acc hchild]
      simp
    · rw [if_neg (by simp [hobj])]
      rw [jsStrictEq_refl_nonObject _ (by simpa using hobj)]
      simp

/-- isEqual is reflexive on the modelled values (Int numbers exclude
the NaN corner). -/
theorem isEqual_refl (v : JVal) : isEqual v v = true := by
  have hobjCase : ∀ w : JVal, sizeJ w < sizeJ w + sizeJ w + 1 := by
    intro w
    omega
  cases v with
  | null => rfl
  | undef => rfl
  | bool b => simp [isEqual, jsTypeof, isNullish, jsStrictEq]
  | num n => simp [isEqual, jsTypeof, isNullish, jsStrictEq]
  | str s => simp [isEqual, jsTypeof, isNullish, jsStrictEq]
  | arr xs =>
    show ((diffObjectsDeep (JVal.arr xs) (JVal.arr xs)).length == 0) = true
    unfold diffObjectsDeep
    rw [diffObjectsDeepGo_refl _ _ _ _ (hobjCase (JVal.arr xs))]
    rfl
  | obj l =>
    show ((diffObjectsDeep (JVal.obj l) (JVal.obj l)).length == 0) = true
    unfold diffObjectsDeep
    rw [diffObjectsDeepGo_refl _ _ _ _ (hobjCase (JVal.obj l))]
    rfl
  | jmap es =>
    show ((diffObjectsDeep (JVal.jmap es) (JVal.jmap es)).length == 0) = true
    unfold diffObjectsDeep
    rw [diffObjectsDeepGo_refl _ _ _ _ (hobjCase (JVal.jmap es))]
    rfl
  | jset xs =>
    show ((diffObjectsDeep (JVal.jset xs) (JVal.jset xs)).length == 0) = true
    unfold diffObjectsDeep
    rw [diffObjectsDeepGo_refl _ _ _ _ (hobjCase (JVal.jset xs))]
    rfl

/-! ### C1: the computed consistency invariant between the two stores -/

theorem findKey_append_last {α : Type} (l : List (String × α)) (k : String) (c : α)
    (h : k ∉ l.map Prod.fst) :
    (l ++ [(k, c)]).find? (fun p => p.1 == k) = some (k, c) := by
  induction l with
  | nil => simp [List.find?]
  | cons p ps ih =>
    simp only [List.map_cons, List.mem_cons] at h
    push_neg at h
    have hk : (p.1 == k) = false := by
      simp only [beq_eq_false_iff_ne, ne_eq]
      exact fun he => h.1 he.symm
    simp only [List.cons_append, List.find?, hk]
    exact ih h.2

theorem jsGet_obj_append_last (l : List (String × JVal)) (k : String) (c : JVal)
    (h : k ∉ l.map Prod.fst) : jsGet (JVal.obj (l ++ [(k, c)])) k = c := by
  unfold jsGet jsOwnProps
  rw [findKey_append_last l k c h]

theorem assocDel_append_last {α : Type} (l : List (String × α)) (k : String) (c : α)
    (h : k ∉ l.map Prod.fst) : assocDel (l ++ [(k, c)]) k = l := by
  unfold assocDel
  rw [List.filter_append]
  have h1 : List.filter (fun p => !(p.1 == k)) [(k, c)] = [] := by
    simp [List.filter]
  rw [h1, List.append_nil]
  apply List.filter_eq_self.mpr
  intro p hp
  have : p.1 ≠ k := by
    intro he
    exact h (List.mem_map.mpr ⟨p, hp, he⟩)
  simp [this]

theorem not_memKey_assocDel {α : Type} (l : List (String × α)) (k : String) :
    k ∉ (assocDel l k).map Prod.fst := by
  intro hm
  obtain ⟨p, hp, hpk⟩ := List.mem_map.mp hm
  have h2 := (List.mem_filter.mp hp).2
  rw [hpk] at h2
  simp at h2

theorem length_eq_zero_false {α : Type} (l : List α) (h : l ≠ []) :
    (l.length == 0) = false := by
  cases l with
  | nil => exact absurd rfl h
  | cons x xs => rfl

/-- The shape of a successful computed strip: always a plain object
without a computed key, and nonempty. -/
theorem itemWithComputedToRaw_shape (o : Option JVal) (ev : JVal)
    (h : itemWithComputedToRaw o = some ev) :
    ∃ l, ev = JVal.obj l ∧ "computed" ∉ l.map Prod.fst ∧ l ≠ [] := by
  cases o with
  | none => cases h
  | some v =>
    simp only [itemWithComputedToRaw] at h
    by_cases hlen : ((assocDel (jsOwnProps v) "computed").length == 0) = true
    · rw [if_pos hlen] at h
      cases h
    · rw [if_neg hlen] at h
      refine ⟨assocDel (jsOwnProps v) "computed", (Option.some.injEq _ _).mp h.symm,
        not_memKey_assocDel _ _, ?_⟩
      intro he
      rw [he] at hlen
      exact hlen rfl

/-- Stripping a record whose computed key sits appended at the end. -/
theorem itemWithComputedToRaw_append (l : List (String × JVal)) (c : JVal)
    (h : "computed" ∉ l.map Prod.fst) (hl : l ≠ []) :
    itemWithComputedToRaw (some (JVal.obj (l ++ [("computed", c)]))) = some (JVal.obj l) := by
  simp only [itemWithComputedToRaw]
  rw [show jsOwnProps (JVal.obj (l ++ [("computed", c)])) = l ++ [("computed", c)] from rfl]
  rw [assocDel_append_last l _ c h]
  rw [if_neg (by rw [length_eq_zero_false l hl]; exact Bool.false_ne_true)]

theorem goodItem_of_not_memKey (v : JVal)
    (h : "computed" ∉ (jsOwnProps v).map Prod.fst) : goodItem v = true := by
  have hany : ((jsOwnProps v).any (fun p => p.1 == "computed")) = false := by
    cases hany : ((jsOwnProps v).any (fun p => p.1 == "computed")) with
    | false => rfl
    | true =>
      obtain ⟨p, hp, hpk⟩ := List.any_eq_true.mp hany
      exact absurd (List.mem_map.mpr ⟨p, hp, by simpa [beq_iff_eq] using hpk⟩) h
  simp [goodItem, hany]

theorem isItemWithComputed_false_of_not_memKey (l : List (String × JVal))
    (h : "computed" ∉ l.map Prod.fst) :
    isItemWithComputed (some (JVal.obj l)) = false := by
  have hany : (l.any (fun p => p.1 == "computed")) = false := by
    cases hany : (l.any (fun p => p.1 == "computed")) with
    | false => rfl
    | true =>
      obtain ⟨p, hp, hpk⟩ := List.any_eq_true.mp hany
      exact absurd (List.mem_map.mpr ⟨p, hp, by simpa [beq_iff_eq] using hpk⟩) h
  simp [isItemWithComputed, jsOwnProps, hany]

theorem isItemWithComputed_append_obj (l : List (String × JVal)) (m : List (String × JVal))
    (h : "computed" ∉ l.map Prod.fst) :
    isItemWithComputed (some (JVal.obj (l ++ [("computed", JVal.obj m)]))) = true := by
  simp only [isItemWithComputed]
  rw [show jsOwnProps (JVal.obj (l ++ [("computed", JVal.obj m)]))
      = l ++ [("computed", JVal.obj m)] from rfl]
  rw [jsGet_obj_append_last _ _ _ h]
  simp [List.any_append, isNullish]

/-- An index key is never the reserved string id. -/
theorem decimalKey_ne_id (n : Nat) : decimalKey n ≠ "id" := by
  unfold decimalKey
  by_cases h0 : (n == 0) = true
  · simp [h0]
  · simp only [h0, Bool.false_eq_true, if_false]
    intro hEq
    have hdata : decimalKeyGo (n + 1) n = "id".data := congrArg String.data hEq
    have hmem : ('i' : Char) ∈ decimalKeyGo (n + 1) n := by
      rw [hdata]; decide
    have := decimalKeyGo_digits (n + 1) n 'i' hmem
    simp at this

/-- Only a plain object can expose a string-valued id property. -/
theorem jsGet_id_obj (v : JVal) (i : String) (h : jsGet v "id" = JVal.str i) :
    ∃ l, v = JVal.obj l := by
  cases v with
  | obj l => exact ⟨l, rfl⟩
  | arr xs =>
    exfalso
    have hu : jsGet (JVal.arr xs) "id" = JVal.undef := by
      unfold jsGet jsOwnProps
      rw [List.find?_eq_none.mpr]
      intro p hp
      simp only [List.mem_map] at hp
      obtain ⟨q, _, rfl⟩ := hp
      simp only [beq_iff_eq]
      exact decimalKey_ne_id q.1
    rw [hu] at h
    exact JVal.noConfusion h
  | str s =>
    exfalso
    have hu : jsGet (JVal.str s) "id" = JVal.undef := by
      unfold jsGet jsOwnProps
      rw [List.find?_eq_none.mpr]
      intro p hp
      simp only [List.mem_map] at hp
      obtain ⟨q, _, rfl⟩ := hp
      simp only [beq_iff_eq]
      exact decimalKey_ne_id q.1
    rw [hu] at h
    exact JVal.noConfusion h
  | null => exact JVal.noConfusion h
  | undef => exact JVal.noConfusion h
  | bool b => exact JVal.noConfusion h
  | num n => exact JVal.noConfusion h
  | jmap es => exact JVal.noConfusion h
  | jset xs => exact JVal.noConfusion h

theorem jsGet_id_ne_nil (l : List (String × JVal)) (i : String)
    (h : jsGet (JVal.obj l) "id" = JVal.str i) : l ≠ [] := by
  intro he
  subst he
  exact JVal.noConfusion h

theorem splitOnSlashGo_ne_nil : ∀ (cs cur : List Char), splitOnSlashGo cs cur ≠ [] := by
  intro cs
  induction cs with
  | nil =>
    intro cur h
    exact List.noConfusion h
  | cons c cs ih =>
    intro cur
    simp only [splitOnSlashGo]
    split
    · exact List.cons_ne_nil _ _
    · exact ih _

theorem splitOnSlashGo_noSlash : ∀ (cs cur : List Char),
    (cs.any (fun c => c == '/')) = false →
    splitOnSlashGo cs cur = [String.mk (cur.reverse ++ cs)] := by
  intro cs
  induction cs with
  | nil =>
    intro cur h
    simp [splitOnSlashGo]
  | cons c cs ih =>
    intro cur h
    simp only [List.any_cons, Bool.or_eq_false_iff] at h
    simp only [splitOnSlashGo, h.1, Bool.false_eq_true, if_false]
    rw [ih _ h.2]
    congr 1
    simp

theorem splitOnSlash_noSlash (key : String)
    (h : (key.data.any (fun c => c == '/')) = false) : splitOnSlash key = [key] := by
  unfold splitOnSlash
  rw [splitOnSlashGo_noSlash _ _ h]
  rfl

/-- The per-id relation the manager maintains between its two record
stores: the key is absent from both, both hold the null tombstone, the
with-computed entry is the raw record with the computed map appended,
or a dead-entry residue holding only a computed map over a nullish raw
entry (left behind by watch callbacks firing on unset records). -/
def EntryRel (e r : Option (Option JVal)) : Prop :=
  (e = none ∧ r = none) ∨
  (e = some none ∧ r = some none) ∨
  (∃ l c, "computed" ∉ l.map Prod.fst ∧ l ≠ [] ∧
    e = some (some (JVal.obj (l ++ [("computed", c)]))) ∧ r = some (some (JVal.obj l))) ∨
  (∃ c, e = some (some (JVal.obj [("computed", c)])) ∧ (r = none ∨ r = some none))

/-- The whole-state form of the computed consistency invariant. -/
def AlignedStores (s : MState) : Prop :=
  ∀ id, EntryRel (assocGet s.withComp id) (assocGet s.raw id)

/-- A freshly constructed manager without persisted or initial data
holds the empty state. -/
theorem constructManager_empty (cfg : MCfg) :
    constructManager cfg [] [] []
      = { raw := [], withComp := [], cacheMeta := [], watches := [],
          nextTok := 0, derivCalls := 0 } := by
  rw [constructManager_no_initial]
  cases hp : cfg.persist <;> simp [reconcileRaw, cleanUpCache, hp]

theorem entryVal_eq_some (store : List (String × Option JVal)) (id : String) (v : JVal) :
    entryVal store id = some v ↔ assocGet store id = some (some v) := by
  unfold entryVal
  cases h : assocGet store id with
  | none => simp
  | some o => cases o <;> simp

theorem mergeComputed_none (k : String) (nv : JVal) :
    mergeComputed none k nv = JVal.obj [("computed", JVal.obj [(k, nv)])] := rfl

theorem mergeComputed_proper (l : List (String × JVal)) (c : JVal) (k : String) (nv : JVal)
    (h : "computed" ∉ l.map Prod.fst) :
    mergeComputed (some (JVal.obj (l ++ [("computed", c)]))) k nv
      = JVal.obj (l ++ [("computed", JVal.obj (assocSet (jsOwnProps c) k nv))]) := by
  simp only [mergeComputed]
  rw [jsGet_obj_append_last l "computed" c h]
  rw [show jsOwnProps (JVal.obj (l ++ [("computed", c)])) = l ++ [("computed", c)] from rfl]
  rw [assocSet_append_last l "computed" c _ h]

theorem watchCallback_withComp_other (id k : String) (fn : DerivFn) (s : MState)
    (id2 : String) (h : id2 ≠ id) :
    assocGet (watchCallback id k fn s).2.withComp id2 = assocGet s.withComp id2 := by
  simp only [watchCallback, bumpCalls]
  split
  · rfl
  · exact assocGet_assocSet_other _ _ _ _ h

/-- A watch callback firing for (id, k) keeps the two stores related at
id: a live entry keeps its raw part and only replaces the appended
computed map, a dead or absent entry grows the computed-only residue
shape. -/
theorem watchCallback_entryRel (id k : String) (fn : DerivFn) (s : MState)
    (h : EntryRel (assocGet s.withComp id) (assocGet s.raw id)) :
    EntryRel (assocGet (watchCallback id k fn s).2.withComp id)
      (assocGet (watchCallback id k fn s).2.raw id) := by
  rw [show (watchCallback id k fn s).2.raw = s.raw from (watchCallback_frame id k fn s).1]
  simp only [watchCallback, bumpCalls]
  split
  · exact h
  · show EntryRel (assocGet (assocSet s.withComp id
      (some (mergeComputed (entryVal s.withComp id) k
        (fn (rawGetterOf s) (JVal.str id) [])))) id) (assocGet s.raw id)
    generalize fn (rawGetterOf s) (JVal.str id) [] = nv
    rw [assocGet_assocSet_self]
    rcases h with ⟨he, hr⟩ | ⟨he, hr⟩ | ⟨l, c, hnc, hl, he, hr⟩ | ⟨c, he, hr⟩
    · have hev : entryVal s.withComp id = none := by unfold entryVal; rw [he]
      rw [hev, mergeComputed_none]
      exact Or.inr (Or.inr (Or.inr ⟨JVal.obj [(k, nv)], rfl, Or.inl hr⟩))
    · have hev : entryVal s.withComp id = none := by unfold entryVal; rw [he]
      rw [hev, mergeComputed_none]
      exact Or.inr (Or.inr (Or.inr ⟨JVal.obj [(k, nv)], rfl, Or.inr hr⟩))
    · have hev : entryVal s.withComp id = some (JVal.obj (l ++ [("computed", c)])) :=
        (entryVal_eq_some _ _ _).mpr he
      rw [hev, mergeComputed_proper l c k nv hnc]
      exact Or.inr (Or.inr (Or.inl ⟨l, _, hnc, hl, rfl, hr⟩))
    · have hev : entryVal s.withComp id = some (JVal.obj [("computed", c)]) :=
        (entryVal_eq_some _ _ _).mpr he
      have hm : mergeComputed (some (JVal.obj [("computed", c)])) k nv
          = JVal.obj [("computed", JVal.obj (assocSet (jsOwnProps c) k nv))] :=
        mergeComputed_proper [] c k nv (by simp)
      rw [hev, hm]
      exact Or.inr (Or.inr (Or.inr ⟨JVal.obj (assocSet (jsOwnProps c) k nv), rfl, hr⟩))

theorem watchCallback_aligned (id k : String) (fn : DerivFn) (s : MState)
    (h : AlignedStores s) : AlignedStores (watchCallback id k fn s).2 := by
  intro id2
  by_cases hid : id2 = id
  · subst hid
    exact watchCallback_entryRel id2 k fn s (h id2)
  · rw [watchCallback_withComp_other id k fn s id2 hid,
      show (watchCallback id k fn s).2.raw = s.raw from (watchCallback_frame id k fn s).1]
    exact h id2

theorem watchGetter_aligned (id k : String) (fn : DerivFn) (s : MState)
    (h : AlignedStores s) : AlignedStores (watchGetter id k fn s).2 := by
  unfold watchGetter
  cases hw : watchOf s id k with
  | some t => exact h
  | none =>
    intro id2
    exact watchCallback_aligned id k fn s h id2

theorem watchGetter_raw (id k : String) (fn : DerivFn) (s : MState) :
    (watchGetter id k fn s).2.raw = s.raw := by
  unfold watchGetter
  cases hw : watchOf s id k with
  | some t => rfl
  | none => exact (watchCallback_frame id k fn s).1

theorem watchGetter_withComp_other (id k : String) (fn : DerivFn) (s : MState)
    (id2 : String) (h : id2 ≠ id) :
    assocGet (watchGetter id k fn s).2.withComp id2 = assocGet s.withComp id2 := by
  unfold watchGetter
  cases hw : watchOf s id k with
  | some t => rfl
  | none => exact watchCallback_withComp_other id k fn s id2 h

theorem initComputedsStep_raw (id : String) (item : Option JVal)
    (acc : (List (String × JVal)) × MState) (g : String × DerivFn) :
    (initComputedsStep id item acc g).2.raw = acc.2.raw := by
  cases item with
  | none => rfl
  | some iv =>
    cases hw : watchOf acc.2 id g.1 with
    | none =>
      simp only [initComputedsStep, hw]
      exact watchGetter_raw id g.1 g.2 acc.2
    | some t =>
      simp only [initComputedsStep, hw]

theorem initComputedsStep_withComp_other (id : String) (item : Option JVal)
    (acc : (List (String × JVal)) × MState) (g : String × DerivFn)
    (id2 : String) (h : id2 ≠ id) :
    assocGet (initComputedsStep id item acc g).2.withComp id2
      = assocGet acc.2.withComp id2 := by
  cases item with
  | none => rfl
  | some iv =>
    cases hw : watchOf acc.2 id g.1 with
    | none =>
      simp only [initComputedsStep, hw]
      exact watchGetter_withComp_other id g.1 g.2 acc.2 id2 h
    | some t =>
      simp only [initComputedsStep, hw]

theorem initComputedsFold_raw (id : String) (item : Option JVal)
    (gs : List (String × DerivFn)) (acc : (List (String × JVal)) × MState) :
    (gs.foldl (initComputedsStep id item) acc).2.raw = acc.2.raw := by
  induction gs generalizing acc with
  | nil => rfl
  | cons g gs ih =>
    rw [List.foldl_cons, ih (initComputedsStep id item acc g)]
    exact initComputedsStep_raw id item acc g

theorem initComputedsFold_withComp_other (id : String) (item : Option JVal)
    (gs : List (String × DerivFn)) (acc : (List (String × JVal)) × MState)
    (id2 : String) (h : id2 ≠ id) :
    assocGet (gs.foldl (initComputedsStep id item) acc).2.withComp id2
      = assocGet acc.2.withComp id2 := by
  induction gs generalizing acc with
  | nil => rfl
  | cons g gs ih =>
    rw [List.foldl_cons, ih (initComputedsStep id item acc g)]
    exact initComputedsStep_withComp_other id item acc g id2 h

theorem initComputeds_raw (cfg : MCfg) (id : String) (item : Option JVal) (s : MState) :
    (initComputeds cfg id item s).2.raw = s.raw :=
  initComputedsFold_raw id item cfg.gs ([], s)

theorem initComputeds_withComp_other (cfg : MCfg) (id : String) (item : Option JVal)
    (s : MState) (id2 : String) (h : id2 ≠ id) :
    assocGet (initComputeds cfg id item s).2.withComp id2 = assocGet s.withComp id2 :=
  initComputedsFold_withComp_other id item cfg.gs ([], s) id2 h

/-- The stores produced by the non-null branch of setRecordItem: the
raw entry is written first, the derivation pass t only registers
subscriptions and rewrites the with-computed entry at the same id, and
the final with-computed write joins the raw value with a computed
map. -/
theorem setRecordItemRest_some_stores (cfg : MCfg) (id : String) (s : MState) (rawv : JVal) :
    ∃ t : MState,
      t.raw = assocSet s.raw id (some rawv) ∧
      (∀ id2, id2 ≠ id → assocGet t.withComp id2 = assocGet s.withComp id2) ∧
      (∃ cm : JVal,
        (setRecordItemRest cfg id s (some rawv)).withComp
          = assocSet t.withComp id
              (some (JVal.obj (assocSet (jsOwnProps rawv) "computed" cm)))) ∧
      (setRecordItemRest cfg id s (some rawv)).raw = t.raw := by
  refine ⟨(initComputeds cfg id (some rawv)
      { s with raw := assocSet s.raw id (some rawv) }).2, ?_, ?_,
    ⟨JVal.obj (initComputeds cfg id (some rawv)
      { s with raw := assocSet s.raw id (some rawv) }).1, ?_⟩, ?_⟩
  · exact initComputeds_raw cfg id (some rawv) _
  · intro id2 h2
    exact initComputeds_withComp_other cfg id (some rawv) _ id2 h2
  · simp only [setRecordItemRest]
    split
    · rfl
    · rfl
  · simp only [setRecordItemRest]
    split
    · rfl
    · rfl

theorem setRecordItemRest_some_aligned (cfg : MCfg) (id : String) (s : MState)
    (l : List (String × JVal))
    (hexc : ∀ id2, id2 ≠ id → EntryRel (assocGet s.withComp id2) (assocGet s.raw id2))
    (hnc : "computed" ∉ l.map Prod.fst) (hl : l ≠ []) :
    AlignedStores (setRecordItemRest cfg id s (some (JVal.obj l))) := by
  obtain ⟨t, htraw, htother, ⟨cm, hW⟩, hR⟩ := setRecordItemRest_some_stores cfg id s (JVal.obj l)
  intro id2
  rw [hW, hR, htraw]
  by_cases hid : id2 = id
  · subst hid
    rw [assocGet_assocSet_self, assocGet_assocSet_self,
      show assocSet (jsOwnProps (JVal.obj l)) "computed" cm = l ++ [("computed", cm)] from
        assocSet_append_notMemKey l _ cm hnc]
    exact Or.inr (Or.inr (Or.inl ⟨l, cm, hnc, hl, rfl, rfl⟩))
  · rw [assocGet_assocSet_other _ _ _ _ hid, assocGet_assocSet_other _ _ _ _ hid,
      htother id2 hid]
    exact hexc id2 hid

theorem setRecordItem_none_aligned (cfg : MCfg) (id : String) (s : MState)
    (hexc : ∀ id2, id2 ≠ id → EntryRel (assocGet s.withComp id2) (assocGet s.raw id2)) :
    AlignedStores (setRecordItem cfg id none s) := by
  rw [setRecordItem_none]
  intro id2
  show EntryRel (assocGet (assocSet s.withComp id none) id2)
    (assocGet (assocSet s.raw id none) id2)
  by_cases hid : id2 = id
  · subst hid
    rw [assocGet_assocSet_self, assocGet_assocSet_self]
    exact Or.inr (Or.inl ⟨rfl, rfl⟩)
  · rw [assocGet_assocSet_other _ _ _ _ hid, assocGet_assocSet_other _ _ _ _ hid]
    exact hexc id2 hid

/-- setRecordItem on a record already free of a computed key skips the
strip and lands in the non-null branch. -/
theorem setRecordItem_clean_aligned (cfg : MCfg) (id : String) (s : MState)
    (l : List (String × JVal))
    (hexc : ∀ id2, id2 ≠ id → EntryRel (assocGet s.withComp id2) (assocGet s.raw id2))
    (hnc : "computed" ∉ l.map Prod.fst) (hl : l ≠ []) :
    AlignedStores (setRecordItem cfg id (some (JVal.obj l)) s) := by
  show AlignedStores (setRecordItemRest cfg id s
    (if isItemWithComputed (some (JVal.obj l)) then itemWithComputedToRaw (some (JVal.obj l))
     else some (JVal.obj l)))
  rw [if_neg (by rw [isItemWithComputed_false_of_not_memKey l hnc]; exact Bool.false_ne_true)]
  exact setRecordItemRest_some_aligned cfg id s l hexc hnc hl

theorem watchGetterFold_aligned (id : String) (gs : List (String × DerivFn)) (s : MState)
    (h : AlignedStores s) : AlignedStores (gs.foldl (watchGetterStep id) s) := by
  induction gs generalizing s with
  | nil => exact h
  | cons g gs ih =>
    rw [List.foldl_cons]
    exact ih (watchGetterStep id s g) (watchGetter_aligned id g.1 g.2 s h)

theorem watchComputedGetters_aligned (cfg : MCfg) (id : String) (s : MState)
    (h : AlignedStores s) : AlignedStores (watchComputedGetters cfg id s) :=
  watchGetterFold_aligned id cfg.gs s h

theorem setAndWatchGetters_aligned (cfg : MCfg) (id : String) (s : MState)
    (l : List (String × JVal)) (h : AlignedStores s)
    (hnc : "computed" ∉ l.map Prod.fst) (hl : l ≠ []) :
    AlignedStores (setAndWatchGetters cfg id (some (JVal.obj l)) s) := by
  have hexc : ∀ id2, id2 ≠ id → EntryRel (assocGet s.withComp id2) (assocGet s.raw id2) :=
    fun id2 _ => h id2
  simp only [setAndWatchGetters]
  split
  · exact setRecordItem_clean_aligned cfg id s l hexc hnc hl
  · show AlignedStores (if isEqual (JVal.obj (initComputeds cfg id (some (JVal.obj l)) s).1)
        (computedMapOf (initComputeds cfg id (some (JVal.obj l)) s).2 id) = true then
          setRecordItem cfg id (some (JVal.obj l)) (initComputeds cfg id (some (JVal.obj l)) s).2
        else watchComputedGetters cfg id (setRecordItem cfg id
          (some (JVal.obj (assocSet (jsOwnProps (JVal.obj l)) "computed"
            (JVal.obj (initComputeds cfg id (some (JVal.obj l)) s).1))))
          (initComputeds cfg id (some (JVal.obj l)) s).2))
    have hexc2 : ∀ id2, id2 ≠ id → EntryRel
        (assocGet (initComputeds cfg id (some (JVal.obj l)) s).2.withComp id2)
        (assocGet (initComputeds cfg id (some (JVal.obj l)) s).2.raw id2) := by
      intro id2 h2
      rw [initComputeds_withComp_other cfg id _ s id2 h2, initComputeds_raw cfg id _ s]
      exact h id2
    split
    · exact setRecordItem_clean_aligned cfg id _ l hexc2 hnc hl
    · apply watchComputedGetters_aligned
      rw [show assocSet (jsOwnProps (JVal.obj l)) "computed"
            (JVal.obj (initComputeds cfg id (some (JVal.obj l)) s).1)
          = l ++ [("computed", JVal.obj (initComputeds cfg id (some (JVal.obj l)) s).1)] from
        assocSet_append_notMemKey l _ _ hnc]
      show AlignedStores (setRecordItemRest cfg id
        (initComputeds cfg id (some (JVal.obj l)) s).2
        (if isItemWithComputed (some (JVal.obj (l ++ [("computed",
            JVal.obj (initComputeds cfg id (some (JVal.obj l)) s).1)]))) then
          itemWithComputedToRaw (some (JVal.obj (l ++ [("computed",
            JVal.obj (initComputeds cfg id (some (JVal.obj l)) s).1)])))
        else some (JVal.obj (l ++ [("computed",
            JVal.obj (initComputeds cfg id (some (JVal.obj l)) s).1)]))))
      rw [if_pos (isItemWithComputed_append_obj l
        (initComputeds cfg id (some (JVal.obj l)) s).1 hnc)]
      rw [itemWithComputedToRaw_append l
        (JVal.obj (initComputeds cfg id (some (JVal.obj l)) s).1) hnc hl]
      exact setRecordItemRest_some_aligned cfg id _ l hexc2 hnc hl

/-- mset after resolving the strip: nullish residues are ignored and a
string id dispatches to setAndWatchGetters. -/
theorem mset_eq_dispatch (cfg : MCfg) (itemIn : JVal) (s : MState) (iv : JVal)
    (hstrip : (if isItemWithComputed (some itemIn) then itemWithComputedToRaw (some itemIn)
               else some itemIn) = some iv) :
    mset cfg itemIn s = if isNullish iv then s else
      match jsGet iv "id" with
      | .str i => setAndWatchGetters cfg i (some iv) s
      | _ => s := by
  simp only [mset]
  rw [hstrip]

theorem mset_eq_self_of_none (cfg : MCfg) (itemIn : JVal) (s : MState)
    (hstrip : (if isItemWithComputed (some itemIn) then itemWithComputedToRaw (some itemIn)
               else some itemIn) = none) :
    mset cfg itemIn s = s := by
  simp only [mset]
  rw [hstrip]

theorem mset_aligned (cfg : MCfg) (item : JVal) (s : MState)
    (hg : goodItem item = true) (h : AlignedStores s) :
    AlignedStores (mset cfg item s) := by
  by_cases hic : isItemWithComputed (some item) = true
  · cases hstrip : itemWithComputedToRaw (some item) with
    | none =>
      rw [mset_eq_self_of_none cfg item s (by rw [if_pos hic, hstrip])]
      exact h
    | some ev =>
      obtain ⟨l, rfl, hnc, hl⟩ := itemWithComputedToRaw_shape (some item) ev hstrip
      rw [mset_eq_dispatch cfg item s (JVal.obj l) (by rw [if_pos hic, hstrip])]
      rw [if_neg (by exact fun hh => Bool.false_ne_true hh)]
      cases hid : jsGet (JVal.obj l) "id" with
      | str i => exact setAndWatchGetters_aligned cfg i s l h hnc hl
      | null => exact h
      | undef => exact h
      | bool b => exact h
      | num n => exact h
      | arr xs => exact h
      | obj l2 => exact h
      | jmap es => exact h
      | jset xs => exact h
  · rw [mset_eq_dispatch cfg item s item (if_neg hic)]
    by_cases hnl : isNullish item = true
    · rw [if_pos hnl]
      exact h
    · rw [if_neg hnl]
      cases hid : jsGet item "id" with
      | str i =>
        obtain ⟨l, rfl⟩ := jsGet_id_obj item i hid
        have hany : (l.any (fun p => p.1 == "computed")) = false := by
          cases hany : (l.any (fun p => p.1 == "computed")) with
          | false => rfl
          | true =>
            exfalso
            simp only [goodItem, jsOwnProps] at hg
            rw [hany] at hg
            simp only [Bool.not_true, Bool.false_or] at hg
            apply hic
            simp only [isItemWithComputed, jsOwnProps]
            rw [hany, hg]
            rfl
        have hnc : "computed" ∉ l.map Prod.fst := by
          intro hm
          obtain ⟨p, hp, hpk⟩ := List.mem_map.mp hm
          have ht : (l.any (fun p => p.1 == "computed")) = true :=
            List.any_eq_true.mpr ⟨p, hp, by simp [beq_iff_eq, hpk]⟩
          rw [hany] at ht
          cases ht
        exact setAndWatchGetters_aligned cfg i s l h hnc (jsGet_id_ne_nil l i hid)
      | null => exact h
      | undef => exact h
      | bool b => exact h
      | num n => exact h
      | arr xs => exact h
      | obj l2 => exact h
      | jmap es => exact h
      | jset xs => exact h

theorem goodItem_jsSpreadSet_obj (l0 : List (String × JVal)) (k1 : String) (x : JVal)
    (hnc : "computed" ∉ l0.map Prod.fst) (hk : k1 ≠ "computed") :
    goodItem (jsSpreadSet (JVal.obj l0) k1 x) = true := by
  apply goodItem_of_not_memKey
  intro hmem
  rcases memKey_assocSet l0 k1 "computed" x hmem with h2 | h2
  · exact hnc h2
  · exact hk h2.symm

/-- The nested setter only ever rewrites the first path segment at the
top level, so it never introduces a computed key when that segment is
not the computed field itself. -/
theorem setNestedChildGo_goodItem (l0 : List (String × JVal)) (k1 : String)
    (rest : List String) (value : JVal)
    (hnc : "computed" ∉ l0.map Prod.fst) (hk : k1 ≠ "computed") :
    goodItem (setNestedChildGo (JVal.obj l0) (k1 :: rest) value) = true := by
  cases rest with
  | nil => exact goodItem_jsSpreadSet_obj l0 k1 value hnc hk
  | cons seg2 rest2 =>
    simp only [setNestedChildGo]
    cases hcv : jsGet (JVal.obj l0) k1 with
    | arr xs =>
      cases hpi : parseIndex seg2 with
      | none => exact goodItem_jsSpreadSet_obj l0 k1 _ hnc hk
      | some index =>
        cases rest2 with
        | nil => exact goodItem_jsSpreadSet_obj l0 k1 _ hnc hk
        | cons s3 r3 => exact goodItem_jsSpreadSet_obj l0 k1 _ hnc hk
    | null => exact goodItem_jsSpreadSet_obj l0 k1 _ hnc hk
    | undef => exact goodItem_jsSpreadSet_obj l0 k1 _ hnc hk
    | bool b => exact goodItem_jsSpreadSet_obj l0 k1 _ hnc hk
    | num n => exact goodItem_jsSpreadSet_obj l0 k1 _ hnc hk
    | str s2 => exact goodItem_jsSpreadSet_obj l0 k1 _ hnc hk
    | obj l2 => exact goodItem_jsSpreadSet_obj l0 k1 _ hnc hk
    | jmap es => exact goodItem_jsSpreadSet_obj l0 k1 _ hnc hk
    | jset xs => exact goodItem_jsSpreadSet_obj l0 k1 _ hnc hk

theorem msetChildOf_eq_direct (cfg : MCfg) (id key : String) (value : JVal) (s : MState)
    (ev : JVal) (hne : (entryVal s.withComp id).isNone = false)
    (hev : itemWithComputedToRaw (entryVal s.withComp id) = some ev)
    (hd : (key.data.any (fun c => c == '/')) = false) :
    msetChildOf cfg id key value s
      = mset cfg (JVal.obj (assocSet (jsOwnProps ev) key value)) s := by
  simp only [msetChildOf]
  rw [hne, hev, hd]
  rfl

theorem msetChildOf_eq_nested (cfg : MCfg) (id key : String) (value : JVal) (s : MState)
    (ev : JVal) (hne : (entryVal s.withComp id).isNone = false)
    (hev : itemWithComputedToRaw (entryVal s.withComp id) = some ev)
    (hd : (key.data.any (fun c => c == '/')) = true) :
    msetChildOf cfg id key value s
      = mset cfg (setNestedChildOnRecord ev key value) s := by
  simp only [msetChildOf]
  rw [hne, hev, hd]
  rfl

theorem msetChildOf_aligned (cfg : MCfg) (id key : String) (value : JVal) (s : MState)
    (hk : goodChildKey key = true) (h : AlignedStores s) :
    AlignedStores (msetChildOf cfg id key value s) := by
  cases hne : (entryVal s.withComp id).isNone with
  | true =>
    have heq : msetChildOf cfg id key value s = s := by
      simp only [msetChildOf]
      rw [hne]
      rfl
    rw [heq]
    exact h
  | false =>
    cases hev : itemWithComputedToRaw (entryVal s.withComp id) with
    | none =>
      have heq : msetChildOf cfg id key value s = s := by
        simp only [msetChildOf]
        rw [hne, hev]
        rfl
      rw [heq]
      exact h
    | some ev =>
      obtain ⟨l0, rfl, hnc, hl0⟩ := itemWithComputedToRaw_shape _ _ hev
      cases hd : (key.data.any (fun c => c == '/')) with
      | false =>
        rw [msetChildOf_eq_direct cfg id key value s _ hne hev hd]
        have hkey : key ≠ "computed" := by
          intro he
          simp only [goodChildKey, splitOnSlash_noSlash key hd] at hk
          rw [he] at hk
          simp at hk
        exact mset_aligned cfg _ s (goodItem_jsSpreadSet_obj l0 key value hnc hkey) h
      | true =>
        rw [msetChildOf_eq_nested cfg id key value s _ hne hev hd]
        cases hsp : splitOnSlash key with
        | nil => exact absurd hsp (splitOnSlashGo_ne_nil _ _)
        | cons k1 restSegs =>
          have hk1 : k1 ≠ "computed" := by
            intro he
            simp only [goodChildKey, hsp, he] at hk
            simp at hk
          have heq : setNestedChildOnRecord (JVal.obj l0) key value
              = setNestedChildGo (JVal.obj l0) (k1 :: restSegs) value := by
            unfold setNestedChildOnRecord
            rw [hsp]
          rw [heq]
          exact mset_aligned cfg _ s
            (setNestedChildGo_goodItem l0 k1 restSegs value hnc hk1) h

theorem munset_aligned (id : String) (s : MState) (h : AlignedStores s) :
    AlignedStores (munset id s) := by
  intro id2
  show EntryRel (assocGet (assocDel (assocSet s.withComp id none) id) id2)
    (assocGet (assocDel (assocSet s.raw id none) id) id2)
  by_cases hid : id2 = id
  · subst hid
    rw [assocGet_assocDel_self, assocGet_assocDel_self]
    exact Or.inl ⟨rfl, rfl⟩
  · rw [assocGet_assocDel_other _ _ _ hid, assocGet_assocSet_other _ _ _ _ hid,
      assocGet_assocDel_other _ _ _ hid, assocGet_assocSet_other _ _ _ _ hid]
    exact h id2

theorem mresetFold_aligned : ∀ (L : List String) (s : MState), AlignedStores s →
    AlignedStores (L.foldl (fun s id => munset id s) s) := by
  intro L
  induction L with
  | nil => intro s h; exact h
  | cons q qs ih =>
    intro s h
    exact ih (munset q s) (munset_aligned q s h)

theorem mreset_aligned (s : MState) (h : AlignedStores s) : AlignedStores (mreset s) :=
  mresetFold_aligned (s.withComp.map Prod.fst) s h

theorem mupdate_aligned : ∀ (cfg : MCfg) (items : List JVal) (s : MState),
    (∀ it ∈ items, goodItem it = true) → AlignedStores s →
    AlignedStores (mupdate cfg items s) := by
  intro cfg items
  induction items with
  | nil => intro s _ h; exact h
  | cons it its ih =>
    intro s hg h
    exact ih (mset cfg it s) (fun x hx => hg x (List.mem_cons_of_mem _ hx))
      (mset_aligned cfg it s (hg it (List.mem_cons_self _ _)) h)

theorem mget_aligned (cfg : MCfg) (id : String) (s : MState) (h : AlignedStores s) :
    AlignedStores (mget cfg id s).2 := by
  simp only [mget]
  split
  · exact setRecordItem_none_aligned cfg id s (fun id2 _ => h id2)
  · exact h

theorem mgetRaw_aligned (cfg : MCfg) (id : String) (s : MState) (h : AlignedStores s) :
    AlignedStores (mgetRaw cfg id s).2 := by
  simp only [mgetRaw]
  split
  · exact setRecordItem_none_aligned cfg id s (fun id2 _ => h id2)
  · exact h

/-- Every public operation and every watch firing preserves the
computed consistency relation between the two stores. -/
theorem step_aligned (cfg : MCfg) (s s2 : MState) (hstep : Step cfg s s2)
    (h : AlignedStores s) : AlignedStores s2 := by
  cases hstep with
  | set item hg => exact mset_aligned cfg item s hg h
  | setChildOf id key value hk => exact msetChildOf_aligned cfg id key value s hk h
  | update items hg => exact mupdate_aligned cfg items s hg h
  | overwrite items hg => exact mupdate_aligned cfg items (mreset s) hg (mreset_aligned s h)
  | unset id => exact munset_aligned id s h
  | reset => exact mreset_aligned s h
  | get id => exact mget_aligned cfg id s h
  | getRaw id => exact mgetRaw_aligned cfg id s h
  | fire id k fn hw hf => exact watchCallback_aligned id k fn s h

/-- Every reachable manager state satisfies the computed consistency
relation. -/
theorem reachable_aligned (cfg : MCfg) (s : MState) (hs : Reachable cfg s) :
    AlignedStores s := by
  unfold Reachable at hs
  induction hs with
  | refl =>
    rw [constructManager_empty]
    intro id
    exact Or.inl ⟨rfl, rfl⟩
  | tail hready hstep ih => exact step_aligned cfg _ _ hstep ih

/-- The ?? null coalescing of an optional record value, as get and
getRaw expose it. -/
def jsOrNull : Option JVal → JVal
  | some v => v
  | none => JVal.null

theorem mget_some (cfg : MCfg) (id : String) (s : MState) (v : JVal)
    (hv : (mget cfg id s).1 = some v) : entryVal s.withComp id = some v := by
  by_cases hi : (entryVal s.withComp id).isNone = true
  · exfalso
    simp only [mget, hi, if_true] at hv
    rw [setRecordItem_none] at hv
    have hv2 : entryVal (assocSet s.withComp id none) id = some v := hv
    unfold entryVal at hv2
    rw [assocGet_assocSet_self] at hv2
    cases hv2
  · simp only [mget] at hv
    rw [if_neg hi] at hv
    exact hv

/-- C1 (amended): for every record id whose get(id) entry is non-null
in a reachable state, removing the computed field from that entry (an
empty residue standing for null, as itemWithComputedToRaw produces it)
yields a value deep-equal to the record returned by getRaw(id); the
invariant holds after every sequence of public mutation operations
whose set payloads carry no nullish computed own property and whose
setChildOf keys do not target the computed field, and after every
computed-field recomputation fired by a watch. -/
theorem computed_strip_matches_raw (cfg : MCfg) (s : MState) (hs : Reachable cfg s)
    (id : String) (v : JVal) (hv : (mget cfg id s).1 = some v) :
    isEqual (jsOrNull (itemWithComputedToRaw (some v)))
      (jsOrNull (mgetRaw cfg id s).1) = true := by
  have hE : entryVal s.withComp id = some v := mget_some cfg id s v hv
  have h2 := (entryVal_eq_some _ _ _).mp hE
  rcases reachable_aligned cfg s hs id with
    ⟨he, hr⟩ | ⟨he, hr⟩ | ⟨l, c, hnc, hl, he, hr⟩ | ⟨c, he, hr⟩
  · rw [he] at h2
    cases h2
  · rw [he] at h2
    exact Option.noConfusion (Option.some.inj h2)
  · rw [he] at h2
    have hveq : JVal.obj (l ++ [("computed", c)]) = v := Option.some.inj (Option.some.inj h2)
    subst hveq
    rw [itemWithComputedToRaw_append l c hnc hl]
    have hRaw : (mgetRaw cfg id s).1 = some (JVal.obj l) := by
      have hEr : entryVal s.raw id = some (JVal.obj l) := (entryVal_eq_some _ _ _).mpr hr
      simp [mgetRaw, hEr]
    rw [hRaw]
    exact isEqual_refl (JVal.obj l)
  · rw [he] at h2
    have hveq : JVal.obj [("computed", c)] = v := Option.some.inj (Option.some.inj h2)
    subst hveq
    rw [show itemWithComputedToRaw (some (JVal.obj [("computed", c)])) = none from rfl]
    have hEr : entryVal s.raw id = none := by
      rcases hr with hr | hr
      · unfold entryVal
        rw [hr]
      · unfold entryVal
        rw [hr]
    rw [mgetRaw_nullish_val cfg id s hEr]
    rfl

/-- A set payload carrying an explicit nullish computed field: the
strip guard skips it, so the raw store keeps the key. -/
def itemBadC1 : JVal := JVal.obj [("id", JVal.str "a"), ("computed", JVal.null)]

def sBadC1 : MState := mset cfgPlain itemBadC1 (constructManager cfgPlain [] [] [])

/-- C1 counterexample: after set({id: a, computed: null}), get(a) is
the non-null record {id: a, computed: {}} but removing its computed
field leaves {id: a}, while getRaw(a) still holds the stored
computed: null key — the two are not deep-equal, so the claim fails
without the no-nullish-computed input discipline. -/
theorem computed_strip_mismatch_cex :
    (mget cfgPlain "a" sBadC1).1
        = some (JVal.obj [("id", JVal.str "a"), ("computed", JVal.obj [])]) ∧
    (mgetRaw cfgPlain "a" sBadC1).1
        = some (JVal.obj [("id", JVal.str "a"), ("computed", JVal.null)]) ∧
    isEqual (jsOrNull (itemWithComputedToRaw (mget cfgPlain "a" sBadC1).1))
        (jsOrNull (mgetRaw cfgPlain "a" sBadC1).1) = false :=
  ⟨rfl, rfl, rfl⟩

def itemW1 : JVal := JVal.obj [("id", JVal.str "a"), ("x", JVal.num 2)]

def sW1 : MState := mset cfgDouble itemW1 (constructManager cfgDouble [] [] [])

def vW1 : JVal := JVal.obj [("id", JVal.str "a"), ("x", JVal.num 2),
  ("computed", JVal.obj [("double", JVal.null)])]

/-- C1 witness: the amended invariant theorem applied to the state
reached by one set step of {id: a, x: 2} under the double derivation,
whose get(a) entry is the computed-joined record. -/
theorem computed_strip_matches_raw_witness :
    isEqual (jsOrNull (itemWithComputedToRaw (some vW1)))
      (jsOrNull (mgetRaw cfgDouble "a" sW1).1) = true :=
  computed_strip_matches_raw cfgDouble sW1
    (Relation.ReflTransGen.single
      (Step.set (constructManager cfgDouble [] [] []) itemW1 rfl))
    "a" vW1 rfl
